import Mathlib

/-!
Verification of build/generate-exports.mjs (qpdf-wasm export-manifest generator).

The script reads a C header, strips comments, scans it with the regex
QPDF_DLL\s+[\w\s\*]+\s+(qpdf_\w+)\s*\( , assembles a final export list from a
manual list plus the filtered discovered symbols, and renders four artifacts.
Below, the string transformations are embedded over List Char; JS regex
semantics (greedy quantifiers with backtracking, global exec loop) are embedded
by explicit longest-first search.
-/

namespace QpdfGen

/-- JS regex word class \w = [A-Za-z0-9_] (ASCII only). -/
def isWordChar (c : Char) : Bool :=
  decide ((48 ≤ c.toNat ∧ c.toNat ≤ 57) ∨ (65 ≤ c.toNat ∧ c.toNat ≤ 90) ∨
    (97 ≤ c.toNat ∧ c.toNat ≤ 122) ∨ c.toNat = 95)

/-- JS regex whitespace class \s (tab, LF, VT, FF, CR, space, NBSP and the
Unicode space separators recognised by ECMAScript). -/
def isJsSpace (c : Char) : Bool :=
  decide (c.toNat = 9 ∨ c.toNat = 10 ∨ c.toNat = 11 ∨ c.toNat = 12 ∨
    c.toNat = 13 ∨ c.toNat = 32 ∨ c.toNat = 160 ∨ c.toNat = 0x1680 ∨
    (0x2000 ≤ c.toNat ∧ c.toNat ≤ 0x200A) ∨ c.toNat = 0x2028 ∨
    c.toNat = 0x2029 ∨ c.toNat = 0x202F ∨ c.toNat = 0x205F ∨
    c.toNat = 0x3000 ∨ c.toNat = 0xFEFF)

/-- Character class [\w\s\*] used for the return-type run in funcRegex. -/
def isRetChar (c : Char) : Bool :=
  isWordChar c || isJsSpace c || c = '*'

/-- Scan for the nearest block-comment closer; returns the suffix after the
first occurrence of the two characters star-slash.  This is the lazy
[\s\S]*?\*\/ part of the first replace at generate-exports.mjs line 108. -/
def findClose : List Char → Option (List Char)
  | [] => none
  | [_] => none
  | '*' :: '/' :: rest => some rest
  | _ :: b :: rest => findClose (b :: rest)

theorem findClose_length :
    ∀ (l r : List Char), findClose l = some r → r.length + 2 ≤ l.length := by
  intro l
  induction l using findClose.induct with
  | case1 => intro r h; simp [findClose] at h
  | case2 => intro r h; simp [findClose] at h
  | case3 rest => intro r h; simp [findClose] at h; subst h; simp
  | case4 a b rest hne ih =>
    intro r h
    rw [findClose] at h
    · have := ih r h; simpa using Nat.le_succ_of_le this
    · exact hne

/-- Fuel-indexed scanner for the first replace of generate-exports.mjs line
108 (global removal of block comments).  The fuel only forces termination:
every scan step consumes at least one character, so any fuel at least the
input length gives the replace's exact behaviour.  An unclosed opener stays in
place (the lazy pattern finds no match there). -/
def stripBlockF : Nat → List Char → List Char
  | 0, _ => []
  | _ + 1, [] => []
  | _ + 1, [c] => [c]
  | fuel + 1, '/' :: '*' :: rest =>
    (match findClose rest with
     | some rest2 => stripBlockF fuel rest2
     | none => '/' :: stripBlockF fuel ('*' :: rest))
  | fuel + 1, c1 :: c2 :: rest => c1 :: stripBlockF fuel (c2 :: rest)

/-- First replace of generate-exports.mjs line 108: global removal of block
comments, each span running to the nearest closing marker (non-greedy). -/
def stripBlockComments (l : List Char) : List Char :=
  stripBlockF l.length l

/-- Line terminators recognised by the dot-excludes and multiline dollar of the
second replace (ECMAScript LineTerminator: LF, CR, LS, PS). -/
def isLineTerm (c : Char) : Bool :=
  decide (c.toNat = 10 ∨ c.toNat = 13 ∨ c.toNat = 0x2028 ∨ c.toNat = 0x2029)

theorem dropWhile_len_le (p : α → Bool) (l : List α) :
    (l.dropWhile p).length ≤ l.length := by
  induction l with
  | nil => simp [List.dropWhile]
  | cons a t ih =>
    by_cases h : p a
    · simpa [List.dropWhile, h] using Nat.le_succ_of_le ih
    · simp [List.dropWhile, h]

/-- Fuel-indexed scanner for the second replace of generate-exports.mjs line
109: global multiline removal of line comments, each span running from a
double slash to the end of its line (the line terminator itself is kept).
Any fuel at least the input length gives the exact behaviour. -/
def stripLineF : Nat → List Char → List Char
  | 0, _ => []
  | _ + 1, [] => []
  | _ + 1, [c] => [c]
  | fuel + 1, '/' :: '/' :: rest => stripLineF fuel (rest.dropWhile fun c => !isLineTerm c)
  | fuel + 1, c1 :: c2 :: rest => c1 :: stripLineF fuel (c2 :: rest)

/-- Second replace of generate-exports.mjs line 109. -/
def stripLineComments (l : List Char) : List Char :=
  stripLineF l.length l

/-- contentWithoutComments (generate-exports.mjs lines 107-109): block comments
stripped first, then line comments. -/
def stripComments (l : List Char) : List Char :=
  stripLineComments (stripBlockComments l)

/-- Backtracking search: try k n, then k (n-1), ..., then k 1; none if all
fail.  This is the candidate order of a greedy regex quantifier. -/
def tryDesc (k : Nat → Option α) : Nat → Option α
  | 0 => none
  | n + 1 => (k (n + 1)).orElse fun _ => tryDesc k n

/-- Greedy one-or-more repetition of a character class followed by the
continuation k, with backtracking: consume the longest run first. -/
def plusTry (p : Char → Bool) (l : List Char) (k : List Char → Option α) :
    Option α :=
  tryDesc (fun i => k (l.drop i)) (l.takeWhile p).length

/-- Greedy zero-or-more repetition of a character class followed by the
continuation k, with backtracking. -/
def starTry (p : Char → Bool) (l : List Char) (k : List Char → Option α) :
    Option α :=
  (tryDesc (fun i => k (l.drop i)) (l.takeWhile p).length).orElse fun _ => k l

/-- One attempt of funcRegex = QPDF_DLL\s+[\w\s\*]+\s+(qpdf_\w+)\s*\( at the
head of l (generate-exports.mjs line 115).  Returns the capture group and the
remaining input after the whole match. -/
def matchAt (l : List Char) : Option (List Char × List Char) :=
  if ("QPDF_DLL".toList).isPrefixOf l then
    plusTry isJsSpace (l.drop 8) fun r1 =>
    plusTry isRetChar r1 fun r2 =>
    plusTry isJsSpace r2 fun r3 =>
    if ("qpdf_".toList).isPrefixOf r3 then
      plusTry isWordChar (r3.drop 5) fun r5 =>
      starTry isJsSpace r5 fun r6 =>
      match r6 with
      | '(' :: r7 =>
        some ("qpdf_".toList ++ (r3.drop 5).take ((r3.drop 5).length - r5.length), r7)
      | _ => none
    else none
  else none

/-- The while/exec loop of generate-exports.mjs lines 117-121: find the
leftmost match at or after the current position, record its capture, continue
after the end of the match.  Fuel bounds the number of scan steps; any fuel of
at least the input length gives the exact JS behaviour because every match
consumes at least one character. -/
def scanAux : Nat → List Char → List (List Char)
  | 0, _ => []
  | _ + 1, [] => []
  | fuel + 1, l@(_ :: rest) =>
    match matchAt l with
    | some (cap, after) => cap :: scanAux fuel after
    | none => scanAux fuel rest

/-- foundFunctions (generate-exports.mjs line 116-121) over a comment-free
buffer. -/
def extractSymbols (clean : List Char) : List (List Char) :=
  scanAux clean.length clean

/-- Discovery pipeline on a raw header: strip comments, then scan. -/
def discoveredL (header : List Char) : List (List Char) :=
  extractSymbols (stripComments header)

/-- foundFunctions as strings for a raw header given as a String. -/
def foundFunctionsOf (header : String) : List String :=
  (discoveredL header.toList).map fun l => String.mk l

/-- manualCFunctions (generate-exports.mjs lines 23-36). -/
def manualCFunctions : List String :=
  ["malloc", "free", "main", "getenv", "setenv", "unsetenv",
   "qpdf_init_write_stream", "qpdf_write_begin", "qpdf_write_continue",
   "qpdf_get_write_progress"]

/-- runtimeMethods (generate-exports.mjs lines 41-56). -/
def runtimeMethods : List String :=
  ["ccall", "cwrap", "setValue", "getValue", "addFunction", "removeFunction",
   "stringToUTF8", "UTF8ToString", "lengthBytesUTF8", "FS", "NODEFS",
   "WORKERFS", "ENV", "callMain"]

/-- incomingMethods (generate-exports.mjs lines 62-67). -/
def incomingMethods : List String :=
  ["noInitialRun", "noFSInit", "locateFile", "preRun"]

/-- Substring occurrence test (semantics of JS String.prototype.includes). -/
def occursIn (l pat : List Char) : Bool :=
  match l with
  | [] => pat.isEmpty
  | _ :: rest => pat.isPrefixOf l || occursIn rest pat

/-- The filter predicate of generate-exports.mjs lines 127-130: drop names
containing the substring _reserved, and drop the exact names qpdf_c_wrap and
qpdf_c_get_qpdf. -/
def keepFn (f : String) : Bool :=
  !(occursIn f.toList "_reserved".toList) &&
  !(["qpdf_c_wrap", "qpdf_c_get_qpdf"].contains f)

/-- exportedFunctions (generate-exports.mjs lines 125-131) as a function of the
discovered list. -/
def exportedFromFound (found : List String) : List String :=
  manualCFunctions ++ found.filter keepFn

/-- exportedFunctions for a given header content. -/
def exportedFunctionsOf (header : String) : List String :=
  exportedFromFound (foundFunctionsOf header)

/-- Semantics of Array.prototype.join: elements concatenated with the
separator between consecutive elements. -/
def sepJoin (sep : List Char) : List (List Char) → List Char
  | [] => []
  | [x] => x
  | x :: y :: t => x ++ sep ++ sepJoin sep (y :: t)

/-- functionsContent (generate-exports.mjs line 140): flat JSON-ish array of
quoted names, each with the Emscripten underscore linkage marker. -/
def functionsContentL (header : String) : List Char :=
  '[' :: sepJoin [','] ((exportedFunctionsOf header).map fun f =>
    '"' :: '_' :: f.toList ++ ['"']) ++ [']']

def functionsContent (header : String) : String :=
  String.mk (functionsContentL header)

/-- runtimeContent (generate-exports.mjs line 151). -/
def runtimeContentL : List Char :=
  '[' :: sepJoin [','] (runtimeMethods.map fun m => '"' :: m.toList ++ ['"']) ++ [']']

def runtimeContent : String :=
  String.mk runtimeContentL

/-- incomingContent (generate-exports.mjs line 162). -/
def incomingContentL : List Char :=
  '[' :: sepJoin [','] (incomingMethods.map fun m => '"' :: m.toList ++ ['"']) ++ [']']

def incomingContent : String :=
  String.mk incomingContentL

/-- tsContent (generate-exports.mjs lines 173-184): the typed mirror file. -/
def tsContentL (header : String) : List Char :=
  ("/* AUTO-GENERATED - DO NOT EDIT BY HAND */\n/* Generated by build/generate-exports.mjs */\n/// <reference types=\"emscripten\" />\n\nexport const allExportedFunctions = [\n").toList ++
  sepJoin (",\n".toList) ((exportedFunctionsOf header).map fun f =>
    ' ' :: ' ' :: '"' :: f.toList ++ ['"']) ++
  ("\n] as const;\n\nexport const allRuntimeMethods = [\n").toList ++
  sepJoin (",\n".toList) (runtimeMethods.map fun m =>
    ' ' :: ' ' :: '"' :: m.toList ++ ['"']) ++
  ("\n] as const;\n").toList

def tsContent (header : String) : String :=
  String.mk (tsContentL header)

/-!
Run model.  The script's effects (mkdirSync, readFileSync, four writeFileSync
calls, process.exit) are embedded as a function over an explicit filesystem
state.  Paths are modelled as strings joined with a slash (the resolve calls of
lines 94 and 143-187 only join the directory with a fixed file name).  A write
oracle says whether the i-th writeFileSync call succeeds; a failed write throws,
which aborts the process with a non-zero exit and performs no further effects.
-/

/-- Filesystem state: a set of existing directories and a map from file path to
content (association list, most recent write first). -/
structure World where
  dirs : List String
  files : List (String × String)
  deriving DecidableEq, Repr

def lookupFile (w : World) (p : String) : Option String :=
  (w.files.find? fun e => e.fst == p).map fun e => e.snd

/-- writeFileSync: record the new content for the path. -/
def writeF (w : World) (p c : String) : World :=
  { dirs := w.dirs, files := (p, c) :: w.files }

/-- mkdirSync with recursive: true (generate-exports.mjs line 89); idempotent. -/
def mkdirRec (w : World) (d : String) : World :=
  if w.dirs.contains d then w else { dirs := d :: w.dirs, files := w.files }

/-- Observable events of one run, in order. -/
inductive Ev where
  | mkdirE (d : String)
  | readE (p : String)
  | computeE (name : String)
  | writeE (p : String)
  deriving DecidableEq, Repr

/-- Result of one run of the script. -/
structure RunOut where
  world : World
  exit : Nat
  trace : List Ev
  errs : List String
  deriving DecidableEq, Repr

/-- The four artifacts in emission order (generate-exports.mjs lines 140-190):
variable name, output path, full content. -/
def emissionPlan (outDir header : String) : List (String × String × String) :=
  [("functionsContent", outDir ++ "/exported-functions.txt", functionsContent header),
   ("runtimeContent", outDir ++ "/exported-runtime-methods.txt", runtimeContent),
   ("incomingContent", outDir ++ "/exported-incoming-methods.txt", incomingContent),
   ("tsContent", outDir ++ "/runtime-methods.ts", tsContent header)]

/-- Sections 4-7 of the script: for each artifact in order, compute its content
(const binding) and then immediately write it.  ok i tells whether the i-th
writeFileSync succeeds; a failing write aborts with exit 1 after the content
was computed but before the file is changed. -/
def emitLoop (ok : Nat → Bool) :
    List (String × String × String) → Nat → World → World × List Ev × Nat
  | [], _, w => (w, [], 0)
  | (nm, p, c) :: rest, i, w =>
    if ok i then
      let r := emitLoop ok rest (i + 1) (writeF w p c)
      (r.fst, Ev.computeE nm :: Ev.writeE p :: r.snd.fst, r.snd.snd)
    else
      (w, [Ev.computeE nm], 1)

/-- The whole script body of generate-exports.mjs lines 89-192: mkdir the
output directory, read the header (exiting 1 with a message naming the path if
that fails), then emit the four artifacts in order. -/
def runScript (w0 : World) (outDir includeDir : String) (ok : Nat → Bool) :
    RunOut :=
  let w1 := mkdirRec w0 outDir
  let headerPath := includeDir ++ "/qpdf-c.h"
  match lookupFile w1 headerPath with
  | none =>
    { world := w1, exit := 1,
      trace := [Ev.mkdirE outDir, Ev.readE headerPath],
      errs := ["❌ Failed to read header file at " ++ headerPath,
               "Make sure git submodules are initialized and you are running from the correct directory."] }
  | some header =>
    let r := emitLoop ok (emissionPlan outDir header) 0 w1
    { world := r.fst, exit := r.snd.snd,
      trace := Ev.mkdirE outDir :: Ev.readE headerPath :: r.snd.fst,
      errs := [] }

/-- Number of leading successful writes allowed by the oracle (at most 4). -/
def okRun (ok : Nat → Bool) : Nat :=
  if ok 0 then if ok 1 then if ok 2 then if ok 3 then 4 else 3 else 2 else 1
  else 0

/-!
Parse-back of artifact contents, used to state the four-artifact consistency
claim: the quoted tokens of the first bracketed array literal in a file.
-/

/-- All double-quoted tokens of a character stream, in order (fuel-indexed;
any fuel at least the input length gives the exact behaviour). -/
def quotedTokensF : Nat → List Char → List (List Char)
  | 0, _ => []
  | _ + 1, [] => []
  | fuel + 1, '"' :: rest =>
    (rest.takeWhile fun c => c ≠ '"') ::
      quotedTokensF fuel ((rest.dropWhile fun c => c ≠ '"').drop 1)
  | fuel + 1, _ :: rest => quotedTokensF fuel rest

def quotedTokens (l : List Char) : List (List Char) :=
  quotedTokensF l.length l

/-- The identifiers rendered into the first array literal of an artifact: the
quoted tokens between the first opening bracket and the next closing bracket. -/
def firstArrayIds (s : String) : List String :=
  (quotedTokens (((s.toList).dropWhile fun c => c ≠ '[').takeWhile
    fun c => c ≠ ']')).map fun l => String.mk l

/-- Path and content of each artifact, in emission order. -/
def artifactFiles (outDir header : String) : List (String × String) :=
  (emissionPlan outDir header).map fun e => (e.snd.fst, e.snd.snd)

/-- The emission event trace as a function of how many writes succeed before
the first failure (n = 4 means the whole emission succeeds). -/
def emitTraceN (outDir : String) : Nat → List Ev
  | 0 => [Ev.computeE "functionsContent"]
  | 1 => [Ev.computeE "functionsContent", Ev.writeE (outDir ++ "/exported-functions.txt"),
          Ev.computeE "runtimeContent"]
  | 2 => [Ev.computeE "functionsContent", Ev.writeE (outDir ++ "/exported-functions.txt"),
          Ev.computeE "runtimeContent", Ev.writeE (outDir ++ "/exported-runtime-methods.txt"),
          Ev.computeE "incomingContent"]
  | 3 => [Ev.computeE "functionsContent", Ev.writeE (outDir ++ "/exported-functions.txt"),
          Ev.computeE "runtimeContent", Ev.writeE (outDir ++ "/exported-runtime-methods.txt"),
          Ev.computeE "incomingContent", Ev.writeE (outDir ++ "/exported-incoming-methods.txt"),
          Ev.computeE "tsContent"]
  | _ => [Ev.computeE "functionsContent", Ev.writeE (outDir ++ "/exported-functions.txt"),
          Ev.computeE "runtimeContent", Ev.writeE (outDir ++ "/exported-runtime-methods.txt"),
          Ev.computeE "incomingContent", Ev.writeE (outDir ++ "/exported-incoming-methods.txt"),
          Ev.computeE "tsContent", Ev.writeE (outDir ++ "/runtime-methods.ts")]

/-! Shared helper lemmas. -/

theorem takeWhile_append_all {p : Char → Bool} {u : List Char} (v : List Char)
    (h : u.all p = true) : (u ++ v).takeWhile p = u ++ v.takeWhile p := by
  induction u with
  | nil => simp
  | cons a t ih => simp_all [List.takeWhile_cons]

theorem dropWhile_append_all {p : Char → Bool} {u : List Char} (v : List Char)
    (h : u.all p = true) : (u ++ v).dropWhile p = v.dropWhile p := by
  induction u with
  | nil => simp
  | cons a t ih => simp_all [List.dropWhile_cons]

theorem occursIn_false_of_notMem {l pat : List Char} {a : Char}
    (h : ∀ c ∈ l, c ≠ a) : occursIn l (a :: pat) = false := by
  induction l with
  | nil => simp [occursIn]
  | cons b rest ih =>
    have hb : b ≠ a := h b (by simp)
    have hr : ∀ c ∈ rest, c ≠ a := fun c hc => h c (by simp [hc])
    have hpre : (a :: pat).isPrefixOf (b :: rest) = false := by
      simp [List.isPrefixOf]
      intro hab
      exact absurd hab.symm hb
    simp [occursIn, hpre, ih hr]

theorem string_append_cancel {s a b : String} (h : s ++ a = s ++ b) : a = b := by
  have hd : (s ++ a).data = (s ++ b).data := by rw [h]
  simp [String.data_append] at hd
  exact String.ext hd

theorem string_append_ne (s : String) {a b : String} (h : a ≠ b) :
    s ++ a ≠ s ++ b :=
  fun hc => h (string_append_cancel hc)

/-!
Claim C2.  The exclusion test of generate-exports.mjs lines 127-130 is NOT a
pure exact-string membership check: besides the exact names qpdf_c_wrap and
qpdf_c_get_qpdf it drops every discovered name containing the substring
_reserved.
-/

/-- Claim C2 counterexample: the discovered name qpdf_get_reserved_info is not
an exact member of the exclusion name list, yet it is removed from the final
export set, because the filter also performs a substring test for _reserved.
This refutes the claim that a symbol is removed if and only if its exact name
is a member of the exclusion set. -/
theorem c2_counterexample :
    keepFn "qpdf_get_reserved_info" = false ∧
    "qpdf_get_reserved_info" ∉ ["qpdf_c_wrap", "qpdf_c_get_qpdf"] ∧
    foundFunctionsOf "QPDF_DLL int qpdf_get_reserved_info(void);" =
      ["qpdf_get_reserved_info"] ∧
    "qpdf_get_reserved_info" ∉
      exportedFunctionsOf "QPDF_DLL int qpdf_get_reserved_info(void);" :=
  ⟨by decide, by decide, by decide, by decide⟩

/-- Claim C2 (amended): a discovered symbol is removed from the final export
set if and only if it contains the substring _reserved or is exactly
qpdf_c_wrap or qpdf_c_get_qpdf.  Both parts are case-sensitive, and the
exact-name part does no substring or pattern matching. -/
theorem c2_exclusion_amended :
    (∀ f : String, keepFn f = false ↔
      (occursIn f.toList "_reserved".toList = true ∨
        f = "qpdf_c_wrap" ∨ f = "qpdf_c_get_qpdf")) ∧
    keepFn "QPDF_C_WRAP" = true ∧ keepFn "qpdf_X_Reserved" = true := by
  refine ⟨fun f => ?_, by decide, by decide⟩
  constructor
  · intro h
    by_cases ho : occursIn f.toList "_reserved".toList = true
    · exact Or.inl ho
    · have hb : occursIn f.toList "_reserved".toList = false := by
        cases hx : occursIn f.toList "_reserved".toList
        · rfl
        · exact absurd hx ho
      rw [keepFn, hb] at h
      simp at h
      by_cases hw : f = "qpdf_c_wrap"
      · exact Or.inr (Or.inl hw)
      · exact Or.inr (Or.inr (h hw))
  · intro h
    rcases h with h | h | h
    · have h2 : occursIn f.data ['_', 'r', 'e', 's', 'e', 'r', 'v', 'e', 'd'] = true := h
      simp [keepFn, h2]
    · subst h; decide
    · subst h; decide

/-!
Claim C3.  Structure of the final export set (generate-exports.mjs lines
125-131): the manual list verbatim, then the discovered symbols with the
filtered names removed, discovery order preserved.
-/

/-- Claim C3: for every discovered sequence, the final export set is the
manual list (verbatim prefix, in its given order) followed by the discovered
symbols filtered by the exclusion predicate, preserving their source order
(the filtered suffix is a sublist of the discovered sequence); with zero
discovered symbols the final set equals the manual list; and the header
pipeline instantiates exactly this assembly. -/
theorem c3_final_export_structure :
    (∀ found : List String,
      exportedFromFound found = manualCFunctions ++ found.filter keepFn ∧
      (exportedFromFound found).take manualCFunctions.length = manualCFunctions ∧
      (exportedFromFound found).drop manualCFunctions.length = found.filter keepFn ∧
      (found.filter keepFn).Sublist found ∧
      (∀ f : String, f ∈ found.filter keepFn ↔ f ∈ found ∧ keepFn f = true)) ∧
    exportedFromFound [] = manualCFunctions ∧
    (∀ header : String,
      exportedFunctionsOf header = exportedFromFound (foundFunctionsOf header)) := by
  refine ⟨fun found => ⟨rfl, ?_, ?_, List.filter_sublist found, fun f => by simp⟩,
    by simp [exportedFromFound], fun header => rfl⟩
  · simpa [exportedFromFound] using
      List.take_left manualCFunctions (found.filter keepFn)
  · simpa [exportedFromFound] using
      List.drop_left manualCFunctions (found.filter keepFn)

/-!
Claim C7.  No deduplication: duplicate declarations are captured twice, and a
name in both the manual list and the discovered list appears twice in the
final set.
-/

/-- Claim C7: the extractor captures a twice-declared identifier twice in
order of appearance; for any discovered list, a name that is both in the
manual list and in the filtered discovered list occurs at least twice in the
final export set; concretely, a header declaring qpdf_write_begin (also a
manual entry) makes the final set contain it exactly twice. -/
theorem c7_no_dedup :
    foundFunctionsOf "QPDF_DLL int qpdf_dup(void);\nQPDF_DLL int qpdf_dup(void);" =
      ["qpdf_dup", "qpdf_dup"] ∧
    (∀ found : List String, ∀ name : String,
      name ∈ manualCFunctions → name ∈ found.filter keepFn →
      2 ≤ (exportedFromFound found).count name) ∧
    (exportedFunctionsOf "QPDF_DLL int qpdf_write_begin(void);").count
      "qpdf_write_begin" = 2 := by
  refine ⟨by decide, fun found name h1 h2 => ?_, by decide⟩
  have hm : 0 < manualCFunctions.count name := List.count_pos_iff.mpr h1
  have hf : 0 < (found.filter keepFn).count name := List.count_pos_iff.mpr h2
  have hc : (exportedFromFound found).count name =
      manualCFunctions.count name + (found.filter keepFn).count name := by
    simp [exportedFromFound, List.count_append]
  omega

/-- Witness for claim C7 at a concrete input. -/
theorem c7_no_dedup_witness :
    2 ≤ (exportedFromFound ["qpdf_write_begin"]).count "qpdf_write_begin" :=
  c7_no_dedup.2.1 ["qpdf_write_begin"] "qpdf_write_begin" (by decide) (by decide)

/-! Helper lemmas about the run model. -/

theorem mkdirRec_files (w : World) (d : String) :
    (mkdirRec w d).files = w.files := by
  rw [mkdirRec]; split <;> rfl

theorem mkdirRec_mem_dirs (w : World) (d : String) :
    d ∈ (mkdirRec w d).dirs := by
  rw [mkdirRec]
  split
  · next h => simpa using h
  · simp

theorem mkdirRec_idem (w : World) (d : String) :
    mkdirRec (mkdirRec w d) d = mkdirRec w d := by
  have h := mkdirRec_mem_dirs w d
  conv_lhs => rw [mkdirRec]
  split
  · rfl
  · next hc => exact absurd h (by simpa using hc)

theorem isPrefixOf_self (l : List Char) : l.isPrefixOf l = true := by
  simp [List.isPrefixOf_iff_prefix]

theorem occursIn_append_self (a b : List Char) : occursIn (a ++ b) b = true := by
  induction a with
  | nil =>
    cases b with
    | nil => simp [occursIn]
    | cons c rest => simp [occursIn, isPrefixOf_self]
  | cons x t ih => simp [occursIn, ih]

/-- Full characterisation of a run whose header read succeeds: exit code,
event trace and final file map as a function of how many writes the oracle
lets through. -/
theorem emission_spec (w0 : World) (outDir includeDir : String)
    (ok : Nat → Bool) (h : String)
    (hh : lookupFile (mkdirRec w0 outDir) (includeDir ++ "/qpdf-c.h") = some h) :
    (runScript w0 outDir includeDir ok).exit = (if okRun ok = 4 then 0 else 1) ∧
    (runScript w0 outDir includeDir ok).trace =
      Ev.mkdirE outDir :: Ev.readE (includeDir ++ "/qpdf-c.h") ::
        emitTraceN outDir (okRun ok) ∧
    (runScript w0 outDir includeDir ok).world.files =
      ((artifactFiles outDir h).take (okRun ok)).reverse ++ w0.files ∧
    (runScript w0 outDir includeDir ok).world.dirs = (mkdirRec w0 outDir).dirs := by
  have hw : (mkdirRec w0 outDir).files = w0.files := mkdirRec_files w0 outDir
  cases h0 : ok 0 with
  | false =>
    refine ⟨?_, ?_, ?_, ?_⟩ <;>
      simp [runScript, hh, emitLoop, emissionPlan, okRun, emitTraceN,
        artifactFiles, writeF, h0, hw]
  | true =>
    cases h1 : ok 1 with
    | false =>
      refine ⟨?_, ?_, ?_, ?_⟩ <;>
        simp [runScript, hh, emitLoop, emissionPlan, okRun, emitTraceN,
          artifactFiles, writeF, h0, h1, hw]
    | true =>
      cases h2 : ok 2 with
      | false =>
        refine ⟨?_, ?_, ?_, ?_⟩ <;>
          simp [runScript, hh, emitLoop, emissionPlan, okRun, emitTraceN,
            artifactFiles, writeF, h0, h1, h2, hw]
      | true =>
        cases h3 : ok 3 with
        | false =>
          refine ⟨?_, ?_, ?_, ?_⟩ <;>
            simp [runScript, hh, emitLoop, emissionPlan, okRun, emitTraceN,
              artifactFiles, writeF, h0, h1, h2, h3, hw]
        | true =>
          refine ⟨?_, ?_, ?_, ?_⟩ <;>
            simp [runScript, hh, emitLoop, emissionPlan, okRun, emitTraceN,
              artifactFiles, writeF, h0, h1, h2, h3, hw]

/-!
Claim C4.  Header read failure is fatal: exit 1, error message naming the
attempted path, and no write is reached.
-/

/-- Claim C4: when the header file cannot be read, the run exits with status
1, the first error line names the attempted header path (it contains that
path as a substring), no write event occurs, and the file map is untouched. -/
theorem c4_read_failure_fatal :
    ∀ (w0 : World) (outDir includeDir : String) (ok : Nat → Bool),
      lookupFile (mkdirRec w0 outDir) (includeDir ++ "/qpdf-c.h") = none →
      (runScript w0 outDir includeDir ok).exit = 1 ∧
      (runScript w0 outDir includeDir ok).world.files = w0.files ∧
      (∀ p : String, Ev.writeE p ∉ (runScript w0 outDir includeDir ok).trace) ∧
      (runScript w0 outDir includeDir ok).errs =
        ["❌ Failed to read header file at " ++ (includeDir ++ "/qpdf-c.h"),
         "Make sure git submodules are initialized and you are running from the correct directory."] ∧
      occursIn ("❌ Failed to read header file at " ++
          (includeDir ++ "/qpdf-c.h")).toList (includeDir ++ "/qpdf-c.h").toList
        = true := by
  intro w0 outDir includeDir ok hh
  have hw : (mkdirRec w0 outDir).files = w0.files := mkdirRec_files w0 outDir
  have hocc : occursIn ("❌ Failed to read header file at " ++
      (includeDir ++ "/qpdf-c.h")).toList (includeDir ++ "/qpdf-c.h").toList
      = true := by
    have hd : ("❌ Failed to read header file at " ++
        (includeDir ++ "/qpdf-c.h")).toList =
        "❌ Failed to read header file at ".toList ++
          (includeDir ++ "/qpdf-c.h").toList := by
      simp [String.data_append]
    rw [hd]
    exact occursIn_append_self _ _
  refine ⟨?_, ?_, ?_, ?_, hocc⟩ <;>
    simp [runScript, hh, hw]

/-- Witness for claim C4 at a concrete input. -/
theorem c4_read_failure_fatal_witness :
    (runScript ⟨[], []⟩ "out" "inc" (fun _ => true)).exit = 1 ∧
    (runScript ⟨[], []⟩ "out" "inc" (fun _ => true)).world.files = [] ∧
    (∀ p : String,
      Ev.writeE p ∉ (runScript ⟨[], []⟩ "out" "inc" (fun _ => true)).trace) ∧
    (runScript ⟨[], []⟩ "out" "inc" (fun _ => true)).errs =
      ["❌ Failed to read header file at " ++ ("inc" ++ "/qpdf-c.h"),
       "Make sure git submodules are initialized and you are running from the correct directory."] ∧
    occursIn ("❌ Failed to read header file at " ++
        ("inc" ++ "/qpdf-c.h")).toList ("inc" ++ "/qpdf-c.h").toList = true :=
  c4_read_failure_fatal ⟨[], []⟩ "out" "inc" (fun _ => true) (by decide)

/-!
Claim C10.  mkdirSync (line 89) runs before readFileSync (line 99): even a run
that fails reading the header has created the output directory; the files are
untouched but the directory side effect has happened.
-/

/-- Claim C10: on a run whose header read fails, the output directory has
nevertheless been created (it is in the directory set, and the mkdir event
precedes the read event in the trace), the directory creation is idempotent,
and no artifact file content was touched. -/
theorem c10_mkdir_before_read :
    ∀ (w0 : World) (outDir includeDir : String) (ok : Nat → Bool),
      lookupFile (mkdirRec w0 outDir) (includeDir ++ "/qpdf-c.h") = none →
      outDir ∈ (runScript w0 outDir includeDir ok).world.dirs ∧
      (runScript w0 outDir includeDir ok).trace =
        [Ev.mkdirE outDir, Ev.readE (includeDir ++ "/qpdf-c.h")] ∧
      (runScript w0 outDir includeDir ok).world.files = w0.files ∧
      mkdirRec (mkdirRec w0 outDir) outDir = mkdirRec w0 outDir := by
  intro w0 outDir includeDir ok hh
  have hw : (mkdirRec w0 outDir).files = w0.files := mkdirRec_files w0 outDir
  have hm : outDir ∈ (mkdirRec w0 outDir).dirs := mkdirRec_mem_dirs w0 outDir
  refine ⟨?_, ?_, ?_, mkdirRec_idem w0 outDir⟩ <;>
    simp [runScript, hh, hw, hm]

/-- Witness for claim C10 at a concrete input. -/
theorem c10_mkdir_before_read_witness :
    "out" ∈ (runScript ⟨[], []⟩ "out" "inc" (fun _ => true)).world.dirs ∧
    (runScript ⟨[], []⟩ "out" "inc" (fun _ => true)).trace =
      [Ev.mkdirE "out", Ev.readE ("inc" ++ "/qpdf-c.h")] ∧
    (runScript ⟨[], []⟩ "out" "inc" (fun _ => true)).world.files = [] ∧
    mkdirRec (mkdirRec ⟨[], []⟩ "out") "out" = mkdirRec ⟨[], []⟩ "out" :=
  c10_mkdir_before_read ⟨[], []⟩ "out" "inc" (fun _ => true) (by decide)

/-- After a fully successful run, each artifact path holds exactly the content
computed for it. -/
theorem lookup_artifact_run (w0 : World) (od incl h : String)
    (hh : lookupFile (mkdirRec w0 od) (incl ++ "/qpdf-c.h") = some h) :
    ∀ pc ∈ artifactFiles od h,
      lookupFile (runScript w0 od incl (fun _ => true)).world pc.fst
        = some pc.snd := by
  have hfiles := (emission_spec w0 od incl (fun _ => true) h hh).2.2.1
  have hok : okRun (fun _ => true) = 4 := by simp [okRun]
  rw [hok] at hfiles
  have hne : ∀ (a b : String), a ≠ b → ((od ++ a) == (od ++ b)) = false :=
    fun a b hab => beq_eq_false_iff_ne.mpr (string_append_ne od hab)
  have n1 := hne "/runtime-methods.ts" "/exported-functions.txt" (by decide)
  have n2 := hne "/exported-incoming-methods.txt" "/exported-functions.txt" (by decide)
  have n3 := hne "/exported-runtime-methods.txt" "/exported-functions.txt" (by decide)
  have n4 := hne "/runtime-methods.ts" "/exported-runtime-methods.txt" (by decide)
  have n5 := hne "/exported-incoming-methods.txt" "/exported-runtime-methods.txt" (by decide)
  have n6 := hne "/runtime-methods.ts" "/exported-incoming-methods.txt" (by decide)
  intro pc hpc
  simp [artifactFiles, emissionPlan] at hpc
  simp [artifactFiles, emissionPlan] at hfiles
  rcases hpc with h' | h' | h' | h' <;> subst h' <;>
    simp [lookupFile, hfiles, List.find?, n1, n2, n3, n4, n5, n6]

/-!
Claim C1.  The script does NOT compute all four artifact contents before the
first write: each artifact's content is computed immediately before its own
writeFileSync (lines 140-190 interleave const bindings and writes), so a
failure at a later write leaves the earlier artifacts freshly written and the
later ones stale.
-/

set_option maxRecDepth 40000 in
/-- Claim C1 counterexample: a run over a world whose four artifact files all
hold stale content OLD, with a write oracle that lets only the first write
succeed.  The trace shows the first write happening before the second
artifact's content is computed (so not all four contents are computed before
the first write), and afterwards the first artifact file is freshly written
(its content differs from OLD) while the other three still hold OLD: a proper
non-empty subset of the four artifacts has been written with new content in a
run that failed mid-emission. -/
theorem c1_counterexample :
    (let r := runScript
      ⟨[], [("inc/qpdf-c.h", "QPDF_DLL int qpdf_a(void);"),
            ("out/exported-functions.txt", "OLD"),
            ("out/exported-runtime-methods.txt", "OLD"),
            ("out/exported-incoming-methods.txt", "OLD"),
            ("out/runtime-methods.ts", "OLD")]⟩
      "out" "inc" (fun i => decide (i = 0));
    r.exit = 1 ∧
    r.trace = [Ev.mkdirE "out", Ev.readE "inc/qpdf-c.h",
      Ev.computeE "functionsContent", Ev.writeE "out/exported-functions.txt",
      Ev.computeE "runtimeContent"] ∧
    lookupFile r.world "out/exported-functions.txt" =
      some (functionsContent "QPDF_DLL int qpdf_a(void);") ∧
    functionsContent "QPDF_DLL int qpdf_a(void);" ≠ "OLD" ∧
    lookupFile r.world "out/exported-runtime-methods.txt" = some "OLD" ∧
    lookupFile r.world "out/exported-incoming-methods.txt" = some "OLD" ∧
    lookupFile r.world "out/runtime-methods.ts" = some "OLD") := by
  decide

/-- Claim C1 (amended): the four artifact contents are all pure functions of
the one in-memory export list, but they are rendered and written interleaved,
in the fixed order functions, runtime, incoming, typed mirror: the i-th
content is computed immediately before the i-th write.  A run whose first
failing write is the n-th one exits non-zero having freshly written exactly
the first n artifact files (so a mid-emission failure can leave a proper
non-empty subset of the artifacts updated); only when all four writes succeed
does the run exit zero with all four files rewritten. -/
theorem c1_amended_interleaved_emission :
    ∀ (w0 : World) (outDir includeDir : String) (ok : Nat → Bool) (h : String),
      lookupFile (mkdirRec w0 outDir) (includeDir ++ "/qpdf-c.h") = some h →
      (runScript w0 outDir includeDir ok).exit =
        (if okRun ok = 4 then 0 else 1) ∧
      (runScript w0 outDir includeDir ok).trace =
        Ev.mkdirE outDir :: Ev.readE (includeDir ++ "/qpdf-c.h") ::
          emitTraceN outDir (okRun ok) ∧
      (runScript w0 outDir includeDir ok).world.files =
        ((artifactFiles outDir h).take (okRun ok)).reverse ++ w0.files :=
  fun w0 outDir includeDir ok h hh =>
    ⟨(emission_spec w0 outDir includeDir ok h hh).1,
     (emission_spec w0 outDir includeDir ok h hh).2.1,
     (emission_spec w0 outDir includeDir ok h hh).2.2.1⟩

/-- Witness for the amended claim C1 at a concrete input (one successful
write, failure at the second). -/
theorem c1_amended_interleaved_emission_witness :
    (runScript ⟨[], [("inc/qpdf-c.h", "X")]⟩ "out" "inc"
        (fun i => decide (i = 0))).exit =
      (if okRun (fun i => decide (i = 0)) = 4 then 0 else 1) ∧
    (runScript ⟨[], [("inc/qpdf-c.h", "X")]⟩ "out" "inc"
        (fun i => decide (i = 0))).trace =
      Ev.mkdirE "out" :: Ev.readE ("inc" ++ "/qpdf-c.h") ::
        emitTraceN "out" (okRun (fun i => decide (i = 0))) ∧
    (runScript ⟨[], [("inc/qpdf-c.h", "X")]⟩ "out" "inc"
        (fun i => decide (i = 0))).world.files =
      ((artifactFiles "out" "X").take (okRun (fun i => decide (i = 0)))).reverse
        ++ [("inc/qpdf-c.h", "X")] :=
  c1_amended_interleaved_emission ⟨[], [("inc/qpdf-c.h", "X")]⟩ "out" "inc"
    (fun i => decide (i = 0)) "X" (by decide)

/-!
Claim C9.  Determinism: two runs over worlds holding the same header content,
with all writes succeeding, leave byte-identical contents in all four artifact
files (each holds exactly the content computed from the header), and both runs
exit zero.
-/

/-- Claim C9: for two runs on the same output and include directories over
worlds that agree on the header file content, every one of the four artifact
paths holds the same content after both runs, namely the rendered artifact
for that header, and both runs succeed. -/
theorem c9_deterministic_artifacts :
    ∀ (w1 w2 : World) (outDir includeDir h : String),
      lookupFile (mkdirRec w1 outDir) (includeDir ++ "/qpdf-c.h") = some h →
      lookupFile (mkdirRec w2 outDir) (includeDir ++ "/qpdf-c.h") = some h →
      (runScript w1 outDir includeDir (fun _ => true)).exit = 0 ∧
      (runScript w2 outDir includeDir (fun _ => true)).exit = 0 ∧
      ∀ pc ∈ artifactFiles outDir h,
        lookupFile (runScript w1 outDir includeDir (fun _ => true)).world pc.fst
          = some pc.snd ∧
        lookupFile (runScript w2 outDir includeDir (fun _ => true)).world pc.fst
          = some pc.snd := by
  intro w1 w2 outDir includeDir h h1 h2
  have e1 := (emission_spec w1 outDir includeDir (fun _ => true) h h1).1
  have e2 := (emission_spec w2 outDir includeDir (fun _ => true) h h2).1
  have hok : okRun (fun _ => true) = 4 := by simp [okRun]
  rw [hok] at e1 e2
  refine ⟨by simpa using e1, by simpa using e2, fun pc hpc => ?_⟩
  exact ⟨lookup_artifact_run w1 outDir includeDir h h1 pc hpc,
         lookup_artifact_run w2 outDir includeDir h h2 pc hpc⟩

/-- Witness for claim C9 at concrete inputs: two different worlds holding the
same header content. -/
theorem c9_deterministic_artifacts_witness :
    (runScript ⟨[], [("inc/qpdf-c.h", "X")]⟩ "out" "inc" (fun _ => true)).exit
      = 0 ∧
    (runScript ⟨["d"], [("other", "y"), ("inc/qpdf-c.h", "X")]⟩ "out" "inc"
        (fun _ => true)).exit = 0 ∧
    ∀ pc ∈ artifactFiles "out" "X",
      lookupFile (runScript ⟨[], [("inc/qpdf-c.h", "X")]⟩ "out" "inc"
        (fun _ => true)).world pc.fst = some pc.snd ∧
      lookupFile (runScript ⟨["d"], [("other", "y"), ("inc/qpdf-c.h", "X")]⟩
        "out" "inc" (fun _ => true)).world pc.fst = some pc.snd :=
  c9_deterministic_artifacts ⟨[], [("inc/qpdf-c.h", "X")]⟩
    ⟨["d"], [("other", "y"), ("inc/qpdf-c.h", "X")]⟩ "out" "inc" "X"
    (by decide) (by decide)

/-! Helper lemmas for the comment stripper. -/

theorem occursIn_cons (a : Char) (l pat : List Char) :
    occursIn (a :: l) pat = (pat.isPrefixOf (a :: l) || occursIn l pat) := rfl

theorem occursIn_cons_false {a : Char} {l pat : List Char}
    (h : occursIn (a :: l) pat = false) :
    pat.isPrefixOf (a :: l) = false ∧ occursIn l pat = false := by
  rw [occursIn_cons] at h
  exact Bool.or_eq_false_iff.mp h

theorem stripBlockF_nil : ∀ f : Nat, stripBlockF f [] = [] := by
  intro f; cases f <;> rfl

theorem stripBlockF_comment (f : Nat) (rest : List Char) :
    stripBlockF (f + 1) ('/' :: '*' :: rest) =
      (match findClose rest with
       | some rest2 => stripBlockF f rest2
       | none => '/' :: stripBlockF f ('*' :: rest)) := rfl

theorem stripBlockF_cons (f : Nat) (a b : Char) (rest : List Char)
    (h : ¬(a = '/' ∧ b = '*')) :
    stripBlockF (f + 1) (a :: b :: rest) = a :: stripBlockF f (b :: rest) := by
  rw [stripBlockF.eq_def]
  split
  · omega
  · simp_all
  · simp_all
  · next heq1 heq2 =>
    injection heq2 with h1 h2
    injection h2 with h2 h3
    exact absurd ⟨h1, h2⟩ h
  · next hf heq1 heq2 =>
    injection heq2 with h1 h2
    injection h2 with h2 h3
    subst h1; subst h2; subst h3
    have hf2 : f = _ := Nat.succ_injective heq1
    rw [hf2]

theorem stripBlockF_fuel :
    ∀ (f1 : Nat) (l : List Char), l.length ≤ f1 →
      ∀ f2 : Nat, l.length ≤ f2 → stripBlockF f1 l = stripBlockF f2 l := by
  intro f1 l
  induction f1, l using stripBlockF.induct with
  | case1 x =>
    intro h f2 h2
    have hx : x = [] := List.eq_nil_of_length_eq_zero (Nat.le_zero.mp h)
    subst hx
    rw [stripBlockF_nil, stripBlockF_nil]
  | case2 n =>
    intro _ f2 _
    rw [stripBlockF_nil, stripBlockF_nil]
  | case3 n c =>
    intro _ f2 h2
    cases f2 with
    | zero => simp at h2
    | succ m => simp [stripBlockF]
  | case4 fuel rest rest2 hfc ih =>
    intro h f2 h2
    cases f2 with
    | zero => simp at h2
    | succ g =>
      have hl := findClose_length rest rest2 hfc
      rw [stripBlockF_comment, stripBlockF_comment, hfc]
      simp only [List.length_cons] at h h2
      exact ih (by omega) g (by omega)
  | case5 fuel rest hfc ih =>
    intro h f2 h2
    cases f2 with
    | zero => simp at h2
    | succ g =>
      rw [stripBlockF_comment, stripBlockF_comment, hfc]
      simp only [List.length_cons] at h h2
      simp only [List.cons.injEq, true_and]
      exact ih (by simp; omega) g (by simp; omega)
  | case6 fuel c1 c2 rest hg ih =>
    intro h f2 h2
    cases f2 with
    | zero => simp at h2
    | succ g =>
      have hne : ¬(c1 = '/' ∧ c2 = '*') := fun ⟨u1, u2⟩ => hg u1 u2
      rw [stripBlockF_cons fuel c1 c2 rest hne, stripBlockF_cons g c1 c2 rest hne]
      simp only [List.length_cons] at h h2
      simp only [List.cons.injEq, true_and]
      exact ih (by simp; omega) g (by simp; omega)

theorem stripBlock_cons (a : Char) (l : List Char)
    (h : ¬(a = '/' ∧ l.head? = some '*')) :
    stripBlockComments (a :: l) = a :: stripBlockComments l := by
  cases l with
  | nil => simp [stripBlockComments, stripBlockF]
  | cons b rest =>
    have hab : ¬(a = '/' ∧ b = '*') := by
      intro ⟨h1, h2⟩
      exact h ⟨h1, by rw [h2]; rfl⟩
    have he := stripBlockF_cons ((b :: rest).length) a b rest hab
    simpa [stripBlockComments] using he

theorem prefix2_false {x y a b : Char} {r : List Char}
    (h : ([x, y].isPrefixOf (a :: b :: r)) = false) : ¬(a = x ∧ b = y) := by
  intro ⟨h1, h2⟩
  subst h1; subst h2
  simp [List.isPrefixOf] at h

theorem stripBlock_id :
    ∀ l : List Char, occursIn l ['/', '*'] = false → stripBlockComments l = l := by
  intro l
  induction l with
  | nil => intro _; rfl
  | cons a t ih =>
    intro h
    obtain ⟨h1, h2⟩ := occursIn_cons_false h
    have hstep : ¬(a = '/' ∧ t.head? = some '*') := by
      intro ⟨ha, ht⟩
      cases t with
      | nil => simp at ht
      | cons b r =>
        have hb : b = '*' := by simpa using ht
        exact prefix2_false h1 ⟨ha, hb⟩
    rw [stripBlock_cons a t hstep, ih h2]

theorem getLast?_cons_of_ne_nil {a : Char} {t : List Char} (h : t ≠ []) :
    (a :: t).getLast? = t.getLast? := by
  cases t with
  | nil => exact absurd rfl h
  | cons b r => exact List.getLast?_cons_cons

theorem stripBlock_append :
    ∀ (p m : List Char), occursIn p ['/', '*'] = false →
      ¬(p.getLast? = some '/' ∧ m.head? = some '*') →
      stripBlockComments (p ++ m) = p ++ stripBlockComments m := by
  intro p
  induction p with
  | nil => intro m _ _; simp
  | cons a t ih =>
    intro m hp hj
    obtain ⟨h1, h2⟩ := occursIn_cons_false hp
    have hstep : ¬(a = '/' ∧ (t ++ m).head? = some '*') := by
      intro ⟨ha, hh⟩
      cases t with
      | nil =>
        exact hj ⟨by simp [ha], by simpa using hh⟩
      | cons y t2 =>
        have hy : y = '*' := by simpa using hh
        exact prefix2_false h1 ⟨ha, hy⟩
    have hj2 : ¬(t.getLast? = some '/' ∧ m.head? = some '*') := by
      cases t with
      | nil => simp
      | cons y t2 =>
        rw [← getLast?_cons_of_ne_nil (a := a) (List.cons_ne_nil y t2)]
        exact hj
    rw [List.cons_append, stripBlock_cons a (t ++ m) hstep, ih m h2 hj2,
      List.cons_append]

theorem findClose_cons (x : Char) (l : List Char)
    (h : ¬(x = '*' ∧ l.head? = some '/')) :
    findClose (x :: l) = findClose l := by
  cases l with
  | nil => simp [findClose]
  | cons b rest =>
    have hxb : ¬(x = '*' ∧ b = '/') := by
      intro ⟨u1, u2⟩
      exact h ⟨u1, by rw [u2]; rfl⟩
    rw [findClose.eq_def]
    split
    · simp_all
    · simp_all
    · next heq =>
      injection heq with e1 e2
      injection e2 with e2 e3
      exact absurd ⟨e1, e2⟩ hxb
    · next heq =>
      injection heq with e1 e2
      rw [e2]

theorem findClose_append :
    ∀ (c s : List Char), occursIn c ['*', '/'] = false →
      findClose (c ++ '*' :: '/' :: s) = some s := by
  intro c
  induction c with
  | nil => intro s _; rfl
  | cons x c2 ih =>
    intro s h
    obtain ⟨h1, h2⟩ := occursIn_cons_false h
    have hstep : ¬(x = '*' ∧ (c2 ++ '*' :: '/' :: s).head? = some '/') := by
      intro ⟨hx, hh⟩
      cases c2 with
      | nil => simp at hh
      | cons y t2 =>
        have hy : y = '/' := by simpa using hh
        exact prefix2_false h1 ⟨hx, hy⟩
    rw [List.cons_append, findClose_cons x _ hstep, ih s h2]

theorem stripBlock_comment_removal (c s : List Char)
    (hc : occursIn c ['*', '/'] = false) :
    stripBlockComments ('/' :: '*' :: (c ++ '*' :: '/' :: s)) =
      stripBlockComments s := by
  have hfc := findClose_append c s hc
  show stripBlockF _ _ = _
  have hlen : ('/' :: '*' :: (c ++ '*' :: '/' :: s)).length =
      (c ++ '*' :: '/' :: s).length + 1 + 1 := by simp
  rw [hlen, stripBlockF_comment, hfc]
  exact stripBlockF_fuel _ s (by simp; omega) s.length (le_refl _)

/-! Line-comment analogues. -/

theorem stripLineF_nil : ∀ f : Nat, stripLineF f [] = [] := by
  intro f; cases f <;> rfl

theorem stripLineF_comment (f : Nat) (rest : List Char) :
    stripLineF (f + 1) ('/' :: '/' :: rest) =
      stripLineF f (rest.dropWhile fun c => !isLineTerm c) := rfl

theorem stripLineF_cons (f : Nat) (a b : Char) (rest : List Char)
    (h : ¬(a = '/' ∧ b = '/')) :
    stripLineF (f + 1) (a :: b :: rest) = a :: stripLineF f (b :: rest) := by
  rw [stripLineF.eq_def]
  split
  · omega
  · simp_all
  · simp_all
  · next heq1 heq2 =>
    injection heq2 with h1 h2
    injection h2 with h2 h3
    exact absurd ⟨h1, h2⟩ h
  · next hf heq1 heq2 =>
    injection heq2 with h1 h2
    injection h2 with h2 h3
    subst h1; subst h2; subst h3
    have hf2 : f = _ := Nat.succ_injective heq1
    rw [hf2]

theorem stripLineF_fuel :
    ∀ (f1 : Nat) (l : List Char), l.length ≤ f1 →
      ∀ f2 : Nat, l.length ≤ f2 → stripLineF f1 l = stripLineF f2 l := by
  intro f1 l
  induction f1, l using stripLineF.induct with
  | case1 x =>
    intro h f2 h2
    have hx : x = [] := List.eq_nil_of_length_eq_zero (Nat.le_zero.mp h)
    subst hx
    rw [stripLineF_nil, stripLineF_nil]
  | case2 n =>
    intro _ f2 _
    rw [stripLineF_nil, stripLineF_nil]
  | case3 n c =>
    intro _ f2 h2
    cases f2 with
    | zero => simp at h2
    | succ m => simp [stripLineF]
  | case4 fuel rest ih =>
    intro h f2 h2
    cases f2 with
    | zero => simp at h2
    | succ g =>
      have hd := dropWhile_len_le (fun c => !isLineTerm c) rest
      rw [stripLineF_comment, stripLineF_comment]
      simp only [List.length_cons] at h h2
      exact ih (by omega) g (by omega)
  | case5 fuel c1 c2 rest hg ih =>
    intro h f2 h2
    cases f2 with
    | zero => simp at h2
    | succ g =>
      have hne : ¬(c1 = '/' ∧ c2 = '/') := fun ⟨u1, u2⟩ => hg u1 u2
      rw [stripLineF_cons fuel c1 c2 rest hne, stripLineF_cons g c1 c2 rest hne]
      simp only [List.length_cons] at h h2
      simp only [List.cons.injEq, true_and]
      exact ih (by simp; omega) g (by simp; omega)

theorem stripLine_cons (a : Char) (l : List Char)
    (h : ¬(a = '/' ∧ l.head? = some '/')) :
    stripLineComments (a :: l) = a :: stripLineComments l := by
  cases l with
  | nil => simp [stripLineComments, stripLineF]
  | cons b rest =>
    have hab : ¬(a = '/' ∧ b = '/') := by
      intro ⟨h1, h2⟩
      exact h ⟨h1, by rw [h2]; rfl⟩
    have he := stripLineF_cons ((b :: rest).length) a b rest hab
    simpa [stripLineComments] using he

theorem stripLine_id :
    ∀ l : List Char, occursIn l ['/', '/'] = false → stripLineComments l = l := by
  intro l
  induction l with
  | nil => intro _; rfl
  | cons a t ih =>
    intro h
    obtain ⟨h1, h2⟩ := occursIn_cons_false h
    have hstep : ¬(a = '/' ∧ t.head? = some '/') := by
      intro ⟨ha, ht⟩
      cases t with
      | nil => simp at ht
      | cons b r =>
        have hb : b = '/' := by simpa using ht
        exact prefix2_false h1 ⟨ha, hb⟩
    rw [stripLine_cons a t hstep, ih h2]

theorem stripLine_append :
    ∀ (p m : List Char), occursIn p ['/', '/'] = false →
      ¬(p.getLast? = some '/' ∧ m.head? = some '/') →
      stripLineComments (p ++ m) = p ++ stripLineComments m := by
  intro p
  induction p with
  | nil => intro m _ _; simp
  | cons a t ih =>
    intro m hp hj
    obtain ⟨h1, h2⟩ := occursIn_cons_false hp
    have hstep : ¬(a = '/' ∧ (t ++ m).head? = some '/') := by
      intro ⟨ha, hh⟩
      cases t with
      | nil =>
        exact hj ⟨by simp [ha], by simpa using hh⟩
      | cons y t2 =>
        have hy : y = '/' := by simpa using hh
        exact prefix2_false h1 ⟨ha, hy⟩
    have hj2 : ¬(t.getLast? = some '/' ∧ m.head? = some '/') := by
      cases t with
      | nil => simp
      | cons y t2 =>
        rw [← getLast?_cons_of_ne_nil (a := a) (List.cons_ne_nil y t2)]
        exact hj
    rw [List.cons_append, stripLine_cons a (t ++ m) hstep, ih m h2 hj2,
      List.cons_append]

theorem stripLine_comment_removal (c : List Char) (t : Char) (s : List Char)
    (hc : c.all (fun ch => !isLineTerm ch) = true) (ht : isLineTerm t = true) :
    stripLineComments ('/' :: '/' :: (c ++ t :: s)) =
      stripLineComments (t :: s) := by
  have hdrop : ((c ++ t :: s).dropWhile fun ch => !isLineTerm ch) = t :: s := by
    rw [dropWhile_append_all _ hc]
    simp [List.dropWhile_cons, ht]
  show stripLineF _ _ = _
  have hlen : ('/' :: '/' :: (c ++ t :: s)).length =
      (c ++ t :: s).length + 1 + 1 := by simp
  rw [hlen, stripLineF_comment, hdrop]
  exact stripLineF_fuel _ (t :: s) (by simp; omega) (t :: s).length (le_refl _)

/-!
Claim C5.  Comment stripping runs before the declaration scan: a declaration
inside a block comment (non-greedy, across line boundaries) or a line comment
(to end of line) is never discovered.
-/

/-- Claim C5: inserting a closed block comment (any contents without a closing
marker, line breaks included, delimited by the nearest closing marker) or a
line comment (any terminator-free contents up to the end of its line) into a
header changes nothing about the discovered symbols: the stripped buffer is
identical to that of the header without the comment, so an export marker or
identifier occurring only inside such a comment is never discovered.  The side
conditions only exclude comment delimiters straddling the chosen cut points. -/
theorem c5_comments_never_discovered :
    (∀ p c s : List Char,
      occursIn p ['/', '*'] = false →
      occursIn c ['*', '/'] = false →
      ¬(p.getLast? = some '/' ∧ s.head? = some '*') →
      discoveredL (p ++ '/' :: '*' :: (c ++ '*' :: '/' :: s)) =
        discoveredL (p ++ s)) ∧
    (∀ p c s : List Char,
      occursIn (p ++ '/' :: '/' :: (c ++ '\n' :: s)) ['/', '*'] = false →
      occursIn (p ++ '\n' :: s) ['/', '*'] = false →
      occursIn p ['/', '/'] = false →
      p.getLast? ≠ some '/' →
      c.all (fun ch => !isLineTerm ch) = true →
      discoveredL (p ++ '/' :: '/' :: (c ++ '\n' :: s)) =
        discoveredL (p ++ '\n' :: s)) := by
  constructor
  · intro p c s hp hc hj
    have h1 : stripBlockComments (p ++ '/' :: '*' :: (c ++ '*' :: '/' :: s)) =
        p ++ stripBlockComments s := by
      rw [stripBlock_append p _ hp (by intro ⟨_, hh⟩; simp at hh),
        stripBlock_comment_removal c s hc]
    have h2 : stripBlockComments (p ++ s) = p ++ stripBlockComments s :=
      stripBlock_append p s hp hj
    unfold discoveredL stripComments
    rw [h1, h2]
  · intro p c s hb1 hb2 hp hpl hcall
    have hb1' := stripBlock_id _ hb1
    have hb2' := stripBlock_id _ hb2
    have hl1 : stripLineComments (p ++ '/' :: '/' :: (c ++ '\n' :: s)) =
        p ++ stripLineComments ('\n' :: s) := by
      rw [stripLine_append p _ hp (fun hx => hpl hx.1),
        stripLine_comment_removal c '\n' s hcall (by decide)]
    have hl2 : stripLineComments (p ++ '\n' :: s) =
        p ++ stripLineComments ('\n' :: s) := by
      rw [stripLine_append p _ hp (by intro ⟨_, hh⟩; simp at hh)]
    unfold discoveredL stripComments
    rw [hb1', hb2', hl1, hl2]

/-- Witness for claim C5 at concrete inputs: a block comment and a line
comment each hiding a marked declaration, with the surrounding header
unchanged; the hidden declaration is not discovered, as evaluating the
discovery pipeline on the witnesses confirms. -/
theorem c5_comments_never_discovered_witness :
    discoveredL ("QPDF_DLL int qpdf_real(void);\n".toList ++
        '/' :: '*' :: (" QPDF_DLL int qpdf_hidden(void); ".toList ++
          '*' :: '/' :: "QPDF_DLL int qpdf_tail(void);".toList)) =
      discoveredL ("QPDF_DLL int qpdf_real(void);\n".toList ++
        "QPDF_DLL int qpdf_tail(void);".toList) ∧
    discoveredL ("QPDF_DLL int qpdf_real(void);\n".toList ++
        '/' :: '/' :: (" QPDF_DLL int qpdf_hidden(void); ".toList ++
          '\n' :: "QPDF_DLL int qpdf_tail(void);".toList)) =
      discoveredL ("QPDF_DLL int qpdf_real(void);\n".toList ++
        '\n' :: "QPDF_DLL int qpdf_tail(void);".toList) ∧
    discoveredL ("QPDF_DLL int qpdf_real(void);\n".toList ++
        "QPDF_DLL int qpdf_tail(void);".toList) =
      ["qpdf_real".toList, "qpdf_tail".toList] :=
  ⟨c5_comments_never_discovered.1 "QPDF_DLL int qpdf_real(void);\n".toList
      " QPDF_DLL int qpdf_hidden(void); ".toList
      "QPDF_DLL int qpdf_tail(void);".toList
      (by decide) (by decide) (by decide),
   c5_comments_never_discovered.2 "QPDF_DLL int qpdf_real(void);\n".toList
      " QPDF_DLL int qpdf_hidden(void); ".toList
      "QPDF_DLL int qpdf_tail(void);".toList
      (by decide) (by decide) (by decide) (by decide) (by decide),
   by decide⟩

/-! Helper lemmas about the regex engine (tryDesc, plusTry, starTry, matchAt,
scanAux). -/

theorem tryDesc_none_above {α : Type} (k : Nat → Option α) (n m : Nat)
    (hmn : m ≤ n) (h : ∀ i, m < i → i ≤ n → k i = none) :
    tryDesc k n = tryDesc k m := by
  induction n with
  | zero =>
    have hm0 : m = 0 := by omega
    rw [hm0]
  | succ n ih =>
    by_cases hm : m = n + 1
    · rw [hm]
    · have h1 : k (n + 1) = none := h (n + 1) (by omega) (le_refl _)
      have hstep : tryDesc k (n + 1) = tryDesc k n := by
        show (k (n + 1)).orElse _ = _
        rw [h1]
        rfl
      rw [hstep]
      exact ih (by omega) (fun i hi1 hi2 => h i hi1 (by omega))

theorem tryDesc_top {α : Type} (k : Nat → Option α) (n : Nat) (a : α)
    (h : k (n + 1) = some a) : tryDesc k (n + 1) = some a := by
  show (k (n + 1)).orElse _ = some a
  rw [h]
  rfl

theorem plusTry_none {α : Type} (p : Char → Bool) (l : List Char)
    (k : List Char → Option α) (hl : l.takeWhile p = []) :
    plusTry p l k = none := by
  unfold plusTry
  rw [hl]
  rfl

theorem plusTry_single {α : Type} (p : Char → Bool) (c : Char) (l : List Char)
    (k : List Char → Option α) (hc : p c = true) (hl : l.takeWhile p = []) :
    plusTry p (c :: l) k = k l := by
  unfold plusTry
  rw [List.takeWhile_cons_of_pos hc, hl]
  show (k ((c :: l).drop 1)).orElse _ = k l
  have hd : (c :: l).drop 1 = l := rfl
  rw [hd]
  cases k l <;> rfl

theorem plusTry_hit {α : Type} (p : Char → Bool) (l : List Char) (m : Nat)
    (a : α) (k : List Char → Option α) (hm0 : 1 ≤ m)
    (hm : m ≤ (l.takeWhile p).length)
    (hnone : ∀ i, m < i → i ≤ (l.takeWhile p).length → k (l.drop i) = none)
    (hhit : k (l.drop m) = some a) :
    plusTry p l k = some a := by
  obtain ⟨m2, rfl⟩ : ∃ m2, m = m2 + 1 := ⟨m - 1, by omega⟩
  unfold plusTry
  rw [tryDesc_none_above (fun i => k (l.drop i)) _ (m2 + 1) hm hnone]
  exact tryDesc_top _ m2 a hhit

theorem starTry_nil {α : Type} (p : Char → Bool) (l : List Char)
    (k : List Char → Option α) (hl : l.takeWhile p = []) :
    starTry p l k = k l := by
  unfold starTry
  rw [hl]
  show (tryDesc _ 0).orElse _ = k l
  rfl

theorem word_not_space (c : Char) (h : isWordChar c = true) :
    isJsSpace c = false := by
  simp only [isWordChar, decide_eq_true_eq] at h
  simp only [isJsSpace, decide_eq_false_iff_not]
  omega

theorem word_imp_ret (c : Char) (h : isWordChar c = true) :
    isRetChar c = true := by
  simp [isRetChar, h]

theorem all_word_imp_ret {l : List Char} (h : l.all isWordChar = true) :
    l.all isRetChar = true := by
  rw [List.all_eq_true] at h ⊢
  exact fun x hx => word_imp_ret x (h x hx)

theorem takeWhile_space_nil_word_append (u t : List Char) (j : Nat)
    (hu : u.all isWordChar = true) (ht : t.takeWhile isJsSpace = [])
    (hj : j ≤ u.length) :
    ((u ++ t).drop j).takeWhile isJsSpace = [] := by
  rcases Nat.lt_or_ge j u.length with hlt | hge
  · rw [List.drop_append_of_le_length (le_of_lt hlt)]
    have hne : u.drop j ≠ [] := by
      intro hx
      have hlen := List.length_drop j u
      rw [hx] at hlen
      simp at hlen
      omega
    obtain ⟨c, rest, hcr⟩ := List.exists_cons_of_ne_nil hne
    rw [hcr, List.cons_append]
    have hcw : isWordChar c = true := by
      have hall : (u.drop j).all isWordChar = true := by
        rw [List.all_eq_true] at hu ⊢
        exact fun x hx => hu x (List.mem_of_mem_drop hx)
      rw [hcr, List.all_cons] at hall
      exact (Bool.and_eq_true_iff.mp hall).1
    exact List.takeWhile_cons_of_neg (by simp [word_not_space c hcw])
  · have hj2 : j = u.length := le_antisymm hj hge
    rw [hj2, List.drop_left]
    exact ht

theorem isPrefixOf_append_self (u v : List Char) :
    u.isPrefixOf (u ++ v) = true := by
  rw [List.isPrefixOf_iff_prefix]
  exact List.prefix_append u v

theorem matchAt_none_head {c : Char} (rest : List Char) (h : c ≠ 'Q') :
    matchAt (c :: rest) = none := by
  unfold matchAt
  have hp : ("QPDF_DLL".toList).isPrefixOf (c :: rest) = false := by
    have : "QPDF_DLL".toList = 'Q' :: "PDF_DLL".toList := rfl
    rw [this]
    simp [List.isPrefixOf]
    intro hq
    exact absurd hq.symm h
  rw [hp]
  rfl

theorem scanAux_no_Q :
    ∀ (fuel : Nat) (l : List Char), (∀ c ∈ l, c ≠ 'Q') →
      scanAux fuel l = [] := by
  intro fuel
  induction fuel with
  | zero => intro l _; rfl
  | succ f ih =>
    intro l hl
    cases l with
    | nil => rfl
    | cons c rest =>
      have hc : c ≠ 'Q' := hl c (by simp)
      have hm := matchAt_none_head rest hc
      show (match matchAt (c :: rest) with
        | some (cap, after) => cap :: scanAux f after
        | none => scanAux f rest) = []
      rw [hm]
      exact ih rest (fun x hx => hl x (by simp [hx]))

theorem scanAux_cons_some (fuel : Nat) (c : Char) (rest cap after : List Char)
    (h : matchAt (c :: rest) = some (cap, after)) :
    scanAux (fuel + 1) (c :: rest) = cap :: scanAux fuel after := by
  show (match matchAt (c :: rest) with
    | some (cap, after) => cap :: scanAux fuel after
    | none => scanAux fuel rest) = _
  rw [h]

/-! The funcRegex match on a multi-word return type declaration, proved for an
arbitrary identifier. -/

theorem matchAt_c6 (ident : List Char) (hne : ident ≠ [])
    (hw : ident.all isWordChar = true) :
    matchAt ("QPDF_DLL".toList ++ ' ' :: ("unsigned long".toList ++ ' ' ::
      ("qpdf_".toList ++ (ident ++ "(void);".toList)))) =
      some ("qpdf_".toList ++ ident, "void);".toList) := by
  have hp := isPrefixOf_append_self "QPDF_DLL".toList
    (' ' :: ("unsigned long".toList ++ ' ' ::
      ("qpdf_".toList ++ (ident ++ "(void);".toList))))
  unfold matchAt
  rw [hp, if_pos rfl, List.drop_left' (by decide : ("QPDF_DLL".toList).length = 8)]
  have hR1tw : (("unsigned long".toList ++ ' ' ::
      ("qpdf_".toList ++ (ident ++ "(void);".toList))) : List Char).takeWhile isJsSpace = [] := by
    have e : ("unsigned long".toList ++ ' ' ::
        ("qpdf_".toList ++ (ident ++ "(void);".toList)) : List Char) =
        'u' :: ("nsigned long".toList ++ ' ' ::
          ("qpdf_".toList ++ (ident ++ "(void);".toList))) := rfl
    rw [e]
    exact List.takeWhile_cons_of_neg (by decide)
  rw [plusTry_single isJsSpace ' ' _ _ (by decide) hR1tw]
  have hUL13 : (("unsigned long".toList : List Char)).length = 13 := by decide
  have hQ5 : (("qpdf_".toList : List Char)).length = 5 := by decide
  have htw : (("unsigned long".toList ++ ' ' ::
      ("qpdf_".toList ++ (ident ++ "(void);".toList)) : List Char)).takeWhile isRetChar =
      "unsigned long".toList ++ ' ' :: ("qpdf_".toList ++ ident) := by
    rw [takeWhile_append_all _
      (by decide : ("unsigned long".toList : List Char).all isRetChar = true)]
    rw [List.takeWhile_cons_of_pos (by decide : isRetChar ' ' = true)]
    rw [takeWhile_append_all _
      (by decide : ("qpdf_".toList : List Char).all isRetChar = true)]
    rw [takeWhile_append_all _ (all_word_imp_ret hw)]
    have eT : ("(void);".toList : List Char) = '(' :: "void);".toList := rfl
    rw [eT, List.takeWhile_cons_of_neg (by decide)]
    simp
  have htwlen : ((("unsigned long".toList ++ ' ' ::
      ("qpdf_".toList ++ (ident ++ "(void);".toList)) : List Char)).takeWhile
        isRetChar).length = 19 + ident.length := by
    rw [htw]
    simp
    omega
  refine plusTry_hit _ _ 13 _ _ (by omega) (by rw [htwlen]; omega) ?_ ?_
  · intro i hi1 hi2
    rw [htwlen] at hi2
    have hD : (("unsigned long".toList ++ ' ' ::
        ("qpdf_".toList ++ (ident ++ "(void);".toList)) : List Char)).drop i =
        (("qpdf_".toList ++ ident) ++ "(void);".toList).drop (i - 14) := by
      have h14 : (("unsigned long".toList ++ ' ' ::
          ("qpdf_".toList ++ (ident ++ "(void);".toList)) : List Char)).drop 14 =
          (("qpdf_".toList ++ ident) ++ "(void);".toList) := by
        have e : ("unsigned long".toList ++ ' ' ::
            ("qpdf_".toList ++ (ident ++ "(void);".toList)) : List Char) =
            "unsigned long ".toList ++ (("qpdf_".toList ++ ident) ++ "(void);".toList) := by
          have e1 : ("unsigned long ".toList : List Char) =
              "unsigned long".toList ++ [' '] := by decide
          rw [e1]
          simp [List.append_assoc]
        rw [e, List.drop_left' (by decide : ("unsigned long ".toList : List Char).length = 14)]
      rw [← h14, List.drop_drop]
      congr 1
      omega
    rw [hD]
    exact plusTry_none _ _ _ (takeWhile_space_nil_word_append _ _ _
      (by rw [List.all_append, hw]; simp only [Bool.and_true]; decide)
      (by decide)
      (by simp; omega))
  · have h13 : (("unsigned long".toList ++ ' ' ::
        ("qpdf_".toList ++ (ident ++ "(void);".toList)) : List Char)).drop 13 =
        ' ' :: ("qpdf_".toList ++ (ident ++ "(void);".toList)) :=
      List.drop_left' hUL13
    rw [h13]
    have hXtw : (("qpdf_".toList ++ (ident ++ "(void);".toList)) : List Char).takeWhile
        isJsSpace = [] := by
      have e : (("qpdf_".toList ++ (ident ++ "(void);".toList)) : List Char) =
          'q' :: ("pdf_".toList ++ (ident ++ "(void);".toList)) := rfl
      rw [e]
      exact List.takeWhile_cons_of_neg (by decide)
    rw [plusTry_single isJsSpace ' ' _ _ (by decide) hXtw]
    rw [isPrefixOf_append_self "qpdf_".toList (ident ++ "(void);".toList), if_pos rfl]
    rw [List.drop_left' hQ5]
    have htw5 : ((ident ++ "(void);".toList) : List Char).takeWhile isWordChar = ident := by
      rw [takeWhile_append_all _ hw]
      have eT : ("(void);".toList : List Char) = '(' :: "void);".toList := rfl
      rw [eT, List.takeWhile_cons_of_neg (by decide)]
      simp
    refine plusTry_hit _ _ ident.length _ _ ?_ (by rw [htw5]) ?_ ?_
    · cases ident with
      | nil => exact absurd rfl hne
      | cons a t => simp
    · intro i hi1 hi2
      rw [htw5] at hi2
      omega
    · rw [List.drop_left]
      rw [starTry_nil _ _ _
        (by decide : ("(void);".toList : List Char).takeWhile isJsSpace = [])]
      have harith : ((ident ++ "(void);".toList : List Char)).length -
          ("(void);".toList : List Char).length = ident.length := by simp
      rw [harith, List.take_left]
      rfl



theorem c6_universal (ident : List Char) (hne : ident ≠ [])
    (hw : ident.all isWordChar = true) :
    discoveredL ("QPDF_DLL unsigned long qpdf_".toList ++ ident ++ "(void);".toList) =
      ["qpdf_".toList ++ ident] := by
  have hbridge : ("QPDF_DLL unsigned long qpdf_".toList ++ ident ++ "(void);".toList
      : List Char) = "QPDF_DLL".toList ++ ' ' :: ("unsigned long".toList ++ ' ' ::
      ("qpdf_".toList ++ (ident ++ "(void);".toList))) := by
    have e1 : ("QPDF_DLL unsigned long qpdf_".toList : List Char) =
        "QPDF_DLL".toList ++ ' ' :: ("unsigned long".toList ++ ' ' :: "qpdf_".toList) := by
      decide
    rw [e1]
    simp [List.append_assoc]
  have hnoslash : ∀ c ∈ ("QPDF_DLL unsigned long qpdf_".toList ++ ident ++
      "(void);".toList : List Char), c ≠ '/' := by
    intro c hc hceq
    subst hceq
    rcases List.mem_append.mp hc with h1 | h2
    · rcases List.mem_append.mp h1 with ha | hi
      · exact absurd ha (by decide)
      · have hwc := List.all_eq_true.mp hw _ hi
        simp [isWordChar] at hwc
    · exact absurd h2 (by decide)
  have hb : occursIn ("QPDF_DLL unsigned long qpdf_".toList ++ ident ++
      "(void);".toList) ['/', '*'] = false := occursIn_false_of_notMem hnoslash
  have hl : occursIn ("QPDF_DLL unsigned long qpdf_".toList ++ ident ++
      "(void);".toList) ['/', '/'] = false := occursIn_false_of_notMem hnoslash
  have hstrip : stripComments ("QPDF_DLL unsigned long qpdf_".toList ++ ident ++
      "(void);".toList) = "QPDF_DLL unsigned long qpdf_".toList ++ ident ++
      "(void);".toList := by
    unfold stripComments
    rw [stripBlock_id _ hb, stripLine_id _ hl]
  unfold discoveredL extractSymbols
  rw [hstrip]
  have econs : ("QPDF_DLL unsigned long qpdf_".toList ++ ident ++ "(void);".toList
      : List Char) = 'Q' :: ("PDF_DLL unsigned long qpdf_".toList ++ ident ++
      "(void);".toList) := rfl
  have hm : matchAt ("QPDF_DLL unsigned long qpdf_".toList ++ ident ++
      "(void);".toList) = some ("qpdf_".toList ++ ident, "void);".toList) := by
    rw [hbridge]
    exact matchAt_c6 ident hne hw
  rw [econs] at hm
  have hlen : ("QPDF_DLL unsigned long qpdf_".toList ++ ident ++ "(void);".toList
      : List Char).length = ("PDF_DLL unsigned long qpdf_".toList ++ ident ++
      "(void);".toList : List Char).length + 1 := by
    rw [econs]
    rfl
  rw [hlen, econs, scanAux_cons_some _ 'Q' _ _ _ hm,
    scanAux_no_Q _ _ (by decide)]

/-!
Claim C6.  Multi-word return types: MARKER unsigned long qpdf_foo( discovers
qpdf_foo; likewise qualified enum and pointer-decorated return types.
-/

/-- Claim C6: for every non-empty word-character identifier x, the declaration
QPDF_DLL unsigned long qpdf_x(void); is discovered and yields exactly qpdf_x;
concrete instances with a qualified enum return type, a pointer-decorated
return type and the unsigned long shape of the spec are also discovered. -/
theorem c6_multiword_return :
    (∀ ident : List Char, ident ≠ [] → ident.all isWordChar = true →
      discoveredL ("QPDF_DLL unsigned long qpdf_".toList ++ ident ++
        "(void);".toList) = ["qpdf_".toList ++ ident]) ∧
    foundFunctionsOf
      "QPDF_DLL enum qpdf_object_type_e qpdf_oh_get_type_code(qpdf_data data, qpdf_oh oh);" =
      ["qpdf_oh_get_type_code"] ∧
    foundFunctionsOf
      "QPDF_DLL char const* qpdf_get_info_key(qpdf_data qpdf, char const* key);" =
      ["qpdf_get_info_key"] ∧
    foundFunctionsOf
      "QPDF_DLL unsigned long qpdf_get_last_string_length(qpdf_data qpdf);" =
      ["qpdf_get_last_string_length"] :=
  ⟨fun ident hne hw => c6_universal ident hne hw, by decide, by decide, by decide⟩

/-- Witness for claim C6 at a concrete identifier. -/
theorem c6_multiword_return_witness :
    discoveredL ("QPDF_DLL unsigned long qpdf_".toList ++ "foo22".toList ++
      "(void);".toList) = ["qpdf_".toList ++ "foo22".toList] :=
  c6_multiword_return.1 "foo22".toList (by decide) (by decide)

/-! Helper lemmas for the four-artifact consistency claim: capture shapes and
parse-back of the rendered array literals. -/

theorem orElse_some_cases {α : Type} {x : Option α} {f : Unit → Option α} {a : α}
    (h : x.orElse f = some a) : x = some a ∨ (x = none ∧ f () = some a) := by
  cases x with
  | none => exact Or.inr ⟨rfl, h⟩
  | some b => exact Or.inl h

theorem tryDesc_some_spec {α : Type} (k : Nat → Option α) :
    ∀ (n : Nat) (a : α), tryDesc k n = some a →
      ∃ i, 1 ≤ i ∧ i ≤ n ∧ k i = some a := by
  intro n
  induction n with
  | zero => intro a h; exact absurd h (by simp [tryDesc])
  | succ n ih =>
    intro a h
    rcases orElse_some_cases h with h1 | ⟨_, h2⟩
    · exact ⟨n + 1, by omega, le_refl _, h1⟩
    · obtain ⟨i, hi1, hi2, hi3⟩ := ih a h2
      exact ⟨i, hi1, by omega, hi3⟩

theorem plusTry_some_spec {α : Type} (p : Char → Bool) (l : List Char)
    (k : List Char → Option α) (a : α) (h : plusTry p l k = some a) :
    ∃ i, 1 ≤ i ∧ i ≤ (l.takeWhile p).length ∧ k (l.drop i) = some a := by
  unfold plusTry at h
  exact tryDesc_some_spec _ _ a h

theorem starTry_some_spec {α : Type} (p : Char → Bool) (l : List Char)
    (k : List Char → Option α) (a : α) (h : starTry p l k = some a) :
    ∃ l2 : List Char, k l2 = some a := by
  unfold starTry at h
  rcases orElse_some_cases h with h1 | ⟨_, h2⟩
  · obtain ⟨i, _, _, hi⟩ := tryDesc_some_spec _ _ a h1
    exact ⟨l.drop i, hi⟩
  · exact ⟨l, h2⟩

theorem takeWhile_len_le (p : Char → Bool) (l : List Char) :
    (l.takeWhile p).length ≤ l.length :=
  (List.takeWhile_sublist p).length_le

theorem take_all_of_le_takeWhile {p : Char → Bool} {l : List Char} {i : Nat}
    (h : i ≤ (l.takeWhile p).length) : (l.take i).all p = true := by
  have hsplit : l = l.takeWhile p ++ l.dropWhile p :=
    (List.takeWhile_append_dropWhile p l).symm
  have htake : l.take i = (l.takeWhile p).take i := by
    conv_lhs => rw [hsplit]
    exact List.take_append_of_le_length h
  rw [htake, List.all_eq_true]
  intro x hx
  have hx2 : x ∈ l.takeWhile p := List.mem_of_mem_take hx
  exact List.mem_takeWhile_imp hx2

/-- Shape of every capture: the qpdf_ prefix followed by a run of word
characters. -/
theorem matchAt_capture {l cap after : List Char}
    (h : matchAt l = some (cap, after)) :
    ∃ w : List Char, cap = "qpdf_".toList ++ w ∧ w.all isWordChar = true := by
  unfold matchAt at h
  by_cases h1 : ("QPDF_DLL".toList).isPrefixOf l = true
  · rw [h1, if_pos rfl] at h
    obtain ⟨i1, _, _, h⟩ := plusTry_some_spec _ _ _ _ h
    obtain ⟨i2, _, _, h⟩ := plusTry_some_spec _ _ _ _ h
    obtain ⟨i3, _, _, h⟩ := plusTry_some_spec _ _ _ _ h
    set r3 := (((l.drop 8).drop i1).drop i2).drop i3 with hr3
    by_cases h2 : ("qpdf_".toList).isPrefixOf r3 = true
    · rw [h2, if_pos rfl] at h
      obtain ⟨i5, hi51, hi52, h⟩ := plusTry_some_spec _ _ _ _ h
      obtain ⟨r6, h⟩ := starTry_some_spec _ _ _ _ h
      split at h
      · rw [Option.some_inj, Prod.mk.injEq] at h
        obtain ⟨hcap, hafter⟩ := h
        have hlen5 : i5 ≤ (r3.drop 5).length :=
          le_trans hi52 (takeWhile_len_le _ _)
        have harith : (r3.drop 5).length - ((r3.drop 5).drop i5).length = i5 := by
          have hm : ((r3.drop 5).drop i5).length = (r3.drop 5).length - i5 :=
            List.length_drop _ _
          omega
        refine ⟨(r3.drop 5).take i5, ?_, take_all_of_le_takeWhile hi52⟩
        rw [← hcap, harith]
      · exact absurd h (by simp)
    · rw [eq_false_of_ne_true h2] at h
      rw [if_neg (by simp)] at h
      exact absurd h (by simp)
  · rw [eq_false_of_ne_true h1] at h
    rw [if_neg (by simp)] at h
    exact absurd h (by simp)



theorem scanAux_all_shape :
    ∀ (fuel : Nat) (l cap : List Char), cap ∈ scanAux fuel l →
      ∃ w, cap = "qpdf_".toList ++ w ∧ w.all isWordChar = true := by
  intro fuel
  induction fuel with
  | zero => intro l cap h; simp [scanAux] at h
  | succ f ih =>
    intro l cap h
    cases l with
    | nil => simp [scanAux] at h
    | cons c rest =>
      by_cases hm : ∃ pr : List Char × List Char, matchAt (c :: rest) = some pr
      · obtain ⟨⟨cp, af⟩, hpr⟩ := hm
        rw [scanAux_cons_some f c rest cp af hpr] at h
        rcases List.mem_cons.mp h with h1 | h2
        · subst h1
          exact matchAt_capture hpr
        · exact ih af cap h2
      · have hnone : matchAt (c :: rest) = none := by
          cases hx : matchAt (c :: rest) with
          | none => rfl
          | some pr => exact absurd ⟨pr, hx⟩ hm
        have hstep : scanAux (f + 1) (c :: rest) = scanAux f rest := by
          show (match matchAt (c :: rest) with
            | some (cap, after) => cap :: scanAux f after
            | none => scanAux f rest) = _
          rw [hnone]
        rw [hstep] at h
        exact ih rest cap h

theorem quotedTokensF_nil : ∀ f : Nat, quotedTokensF f [] = [] := by
  intro f; cases f <;> rfl

theorem quotedTokensF_quote (f : Nat) (rest : List Char) :
    quotedTokensF (f + 1) ('"' :: rest) =
      (rest.takeWhile fun c => c ≠ '"') ::
        quotedTokensF f ((rest.dropWhile fun c => c ≠ '"').drop 1) := rfl

theorem quotedTokensF_cons (f : Nat) (c : Char) (rest : List Char)
    (hc : c ≠ '"') :
    quotedTokensF (f + 1) (c :: rest) = quotedTokensF f rest := by
  rw [quotedTokensF.eq_def]
  split
  · omega
  · simp_all
  · next heq1 heq2 =>
    injection heq2 with e1 e2
    exact absurd e1 hc
  · next hg heq1 heq2 =>
    injection heq2 with e1 e2
    subst e2
    have hf2 : f = _ := Nat.succ_injective heq1
    rw [hf2]

theorem quotedTokensF_fuel :
    ∀ (f1 : Nat) (l : List Char), l.length ≤ f1 →
      ∀ f2 : Nat, l.length ≤ f2 → quotedTokensF f1 l = quotedTokensF f2 l := by
  intro f1 l
  induction f1, l using quotedTokensF.induct with
  | case1 x =>
    intro h f2 h2
    have hx : x = [] := List.eq_nil_of_length_eq_zero (Nat.le_zero.mp h)
    subst hx
    rw [quotedTokensF_nil, quotedTokensF_nil]
  | case2 n =>
    intro _ f2 _
    rw [quotedTokensF_nil, quotedTokensF_nil]
  | case3 fuel rest ih =>
    intro h f2 h2
    cases f2 with
    | zero => simp at h2
    | succ g =>
      rw [quotedTokensF_quote, quotedTokensF_quote]
      have hd1 := dropWhile_len_le (fun c => decide (c ≠ '"')) rest
      have hd2 : ((rest.dropWhile fun c => decide (c ≠ '"')).drop 1).length =
          (rest.dropWhile fun c => decide (c ≠ '"')).length - 1 :=
        List.length_drop _ _
      simp only [List.length_cons] at h h2
      simp only [List.cons.injEq, true_and]
      exact ih (by omega) g (by omega)
  | case4 fuel c rest hg ih =>
    intro h f2 h2
    cases f2 with
    | zero => simp at h2
    | succ g =>
      have hc : c ≠ '"' := fun hx => hg hx
      rw [quotedTokensF_cons fuel c rest hc, quotedTokensF_cons g c rest hc]
      simp only [List.length_cons] at h h2
      exact ih (by omega) g (by omega)

theorem qt_skip (c : Char) (l : List Char) (hc : c ≠ '"') :
    quotedTokens (c :: l) = quotedTokens l := by
  show quotedTokensF (c :: l).length (c :: l) = _
  have hl : (c :: l).length = l.length + 1 := rfl
  rw [hl, quotedTokensF_cons l.length c l hc]
  rfl

theorem qt_append_skip :
    ∀ (a : List Char), (a.all fun c => c ≠ '"') = true →
      ∀ l, quotedTokens (a ++ l) = quotedTokens l := by
  intro a
  induction a with
  | nil => intro _ l; simp
  | cons c t ih =>
    intro h l
    rw [List.all_cons, Bool.and_eq_true_iff] at h
    rw [List.cons_append, qt_skip c _ (by simpa using h.1), ih h.2 l]

theorem qt_quoted (w rest : List Char) (hw : (w.all fun c => c ≠ '"') = true) :
    quotedTokens ('"' :: (w ++ '"' :: rest)) = w :: quotedTokens rest := by
  show quotedTokensF ('"' :: (w ++ '"' :: rest)).length ('"' :: (w ++ '"' :: rest)) = _
  have hl : ('"' :: (w ++ '"' :: rest)).length = (w ++ '"' :: rest).length + 1 := rfl
  rw [hl, quotedTokensF_quote]
  rw [takeWhile_append_all _ hw, List.takeWhile_cons_of_neg (by simp)]
  rw [dropWhile_append_all _ hw, List.dropWhile_cons_of_neg (by simp)]
  have hd : (('"' :: rest : List Char)).drop 1 = rest := rfl
  rw [hd, List.append_nil]
  have hfuel : quotedTokensF (w ++ '"' :: rest).length rest =
      quotedTokensF rest.length rest :=
    quotedTokensF_fuel _ rest (by simp; omega) rest.length (le_refl _)
  rw [hfuel]
  rfl

theorem sepJoin_all (sep : List Char) (p : Char → Bool) (hsep : sep.all p = true) :
    ∀ ws : List (List Char), (∀ w ∈ ws, w.all p = true) →
      (sepJoin sep ws).all p = true := by
  intro ws
  induction ws with
  | nil => intro _; rfl
  | cons x t ih =>
    intro h
    cases t with
    | nil => exact h x (by simp)
    | cons y t2 =>
      show ((x ++ sep ++ sepJoin sep (y :: t2)).all p) = true
      rw [List.all_append, List.all_append]
      simp only [Bool.and_eq_true_iff]
      exact ⟨⟨h x (by simp), hsep⟩, ih (fun w hw => h w (by simp [hw]))⟩



theorem all_mono {p q : Char → Bool} (hpq : ∀ c, p c = true → q c = true) :
    ∀ l : List Char, l.all p = true → l.all q = true := by
  intro l h
  rw [List.all_eq_true] at h ⊢
  exact fun x hx => hpq x (h x hx)

theorem word_ne_quote (c : Char) (h : isWordChar c = true) : c ≠ '"' := by
  intro hc
  subst hc
  exact absurd h (by decide)

theorem word_clean_quote {l : List Char} (h : l.all isWordChar = true) :
    (l.all fun c => c ≠ '"') = true :=
  all_mono (fun c hc => decide_eq_true (word_ne_quote c hc)) l h

theorem word_ne_rbracket (c : Char) (h : isWordChar c = true) : c ≠ ']' := by
  intro hc
  subst hc
  exact absurd h (by decide)

theorem word_clean_rbracket {l : List Char} (h : l.all isWordChar = true) :
    (l.all fun c => c ≠ ']') = true :=
  all_mono (fun c hc => decide_eq_true (word_ne_rbracket c hc)) l h

/-- Every name in the final export set is made of word characters only. -/
theorem exported_all_word (h : String) :
    ∀ f ∈ exportedFunctionsOf h, f.toList.all isWordChar = true := by
  intro f hf
  unfold exportedFunctionsOf exportedFromFound at hf
  rcases List.mem_append.mp hf with hm | hd
  · exact (by decide :
      ∀ g ∈ manualCFunctions, g.toList.all isWordChar = true) f hm
  · have hd2 : f ∈ foundFunctionsOf h := (List.mem_filter.mp hd).1
    unfold foundFunctionsOf at hd2
    obtain ⟨cap, hcap, rfl⟩ := List.mem_map.mp hd2
    unfold discoveredL extractSymbols at hcap
    obtain ⟨w, rfl, hw⟩ := scanAux_all_shape _ _ cap hcap
    show (("qpdf_".toList ++ w) : List Char).all isWordChar = true
    rw [List.all_append, Bool.and_eq_true_iff]
    exact ⟨by decide, hw⟩

theorem qt_body_fn :
    ∀ (ids : List (List Char)), (∀ w ∈ ids, (w.all fun c => c ≠ '"') = true) →
      ∀ tail : List Char,
        quotedTokens
          (sepJoin [','] (ids.map fun f => '"' :: '_' :: f ++ ['"']) ++ tail) =
          (ids.map fun f => '_' :: f) ++ quotedTokens tail := by
  intro ids
  induction ids with
  | nil => intro _ tail; simp [sepJoin]
  | cons x t ih =>
    intro h tail
    have hx : (('_' :: x : List Char).all fun c => c ≠ '"') = true := by
      rw [List.all_cons, Bool.and_eq_true_iff]
      exact ⟨by decide, h x (by simp)⟩
    cases t with
    | nil =>
      show quotedTokens (('"' :: '_' :: x ++ ['"']) ++ tail) = _
      have e : (('"' :: '_' :: x ++ ['"']) ++ tail : List Char) =
          '"' :: (('_' :: x) ++ '"' :: tail) := by simp
      rw [e, qt_quoted _ _ hx]
      simp [sepJoin]
    | cons y t2 =>
      show quotedTokens ((('"' :: '_' :: x ++ ['"']) ++ [','] ++
        sepJoin [','] ((y :: t2).map fun f => '"' :: '_' :: f ++ ['"'])) ++ tail) = _
      have e : ((('"' :: '_' :: x ++ ['"']) ++ [','] ++
          sepJoin [','] ((y :: t2).map fun f => '"' :: '_' :: f ++ ['"'])) ++ tail
            : List Char) =
          '"' :: (('_' :: x) ++ '"' :: ([','] ++
            (sepJoin [','] ((y :: t2).map fun f => '"' :: '_' :: f ++ ['"']) ++ tail))) := by
        simp
      rw [e, qt_quoted _ _ hx, qt_append_skip [','] (by decide),
        ih (fun w hw => h w (by simp [hw])) tail]
      simp

theorem qt_body_ts :
    ∀ (ids : List (List Char)), (∀ w ∈ ids, (w.all fun c => c ≠ '"') = true) →
      ∀ tail : List Char,
        quotedTokens
          (sepJoin (",\n".toList)
            (ids.map fun f => ' ' :: ' ' :: '"' :: (f ++ ['"'])) ++ tail) =
          ids ++ quotedTokens tail := by
  intro ids
  induction ids with
  | nil => intro _ tail; simp [sepJoin]
  | cons x t ih =>
    intro h tail
    have hx := h x (by simp)
    cases t with
    | nil =>
      show quotedTokens ((' ' :: ' ' :: '"' :: (x ++ ['"'])) ++ tail) = _
      have e : ((' ' :: ' ' :: '"' :: (x ++ ['"'])) ++ tail : List Char) =
          ' ' :: ' ' :: ('"' :: (x ++ '"' :: tail)) := by simp
      rw [e, qt_skip _ _ (by decide), qt_skip _ _ (by decide), qt_quoted _ _ hx]
      simp [sepJoin]
    | cons y t2 =>
      show quotedTokens (((' ' :: ' ' :: '"' :: (x ++ ['"'])) ++ ",\n".toList ++
        sepJoin (",\n".toList)
          ((y :: t2).map fun f => ' ' :: ' ' :: '"' :: (f ++ ['"']))) ++ tail) = _
      have e : (((' ' :: ' ' :: '"' :: (x ++ ['"'])) ++ ",\n".toList ++
          sepJoin (",\n".toList)
            ((y :: t2).map fun f => ' ' :: ' ' :: '"' :: (f ++ ['"']))) ++ tail
            : List Char) =
          ' ' :: ' ' :: ('"' :: (x ++ '"' :: (",\n".toList ++
            (sepJoin (",\n".toList)
              ((y :: t2).map fun f => ' ' :: ' ' :: '"' :: (f ++ ['"'])) ++ tail)))) := by
        simp
      rw [e, qt_skip _ _ (by decide), qt_skip _ _ (by decide), qt_quoted _ _ hx,
        qt_append_skip (",\n".toList) (by decide),
        ih (fun w hw => h w (by simp [hw])) tail]
      simp



theorem firstArrayIds_functions (h : String) :
    firstArrayIds (functionsContent h) =
      (exportedFunctionsOf h).map fun f => "_" ++ f := by
  have hword := exported_all_word h
  unfold firstArrayIds
  have hct : (functionsContent h).toList = functionsContentL h := rfl
  rw [hct]
  unfold functionsContentL
  have hmap : ((exportedFunctionsOf h).map fun f => '"' :: '_' :: f.toList ++ ['"']) =
      ((exportedFunctionsOf h).map fun f => f.toList).map
        (fun w => '"' :: '_' :: w ++ ['"']) := by
    rw [List.map_map]
    rfl
  rw [hmap]
  have hcleanQ : ∀ w ∈ (exportedFunctionsOf h).map (fun f => f.toList),
      (w.all fun c => c ≠ '"') = true := by
    intro w hw
    obtain ⟨f, hf, rfl⟩ := List.mem_map.mp hw
    exact word_clean_quote (hword f hf)
  have hcleanB : ∀ w ∈ (exportedFunctionsOf h).map (fun f => f.toList),
      (w.all fun c => c ≠ ']') = true := by
    intro w hw
    obtain ⟨f, hf, rfl⟩ := List.mem_map.mp hw
    exact word_clean_rbracket (hword f hf)
  have hbodyclean : ((sepJoin [',']
      (((exportedFunctionsOf h).map fun f => f.toList).map
        (fun w => '"' :: '_' :: w ++ ['"']))).all fun c => c ≠ ']') = true := by
    refine sepJoin_all _ _ (by decide) _ ?_
    intro w hw
    obtain ⟨v, hv, rfl⟩ := List.mem_map.mp hw
    rw [List.all_append, Bool.and_eq_true_iff]
    refine ⟨?_, by decide⟩
    rw [List.all_cons, Bool.and_eq_true_iff]
    refine ⟨by decide, ?_⟩
    rw [List.all_cons, Bool.and_eq_true_iff]
    exact ⟨by decide, hcleanB v hv⟩
  rw [List.cons_append, List.dropWhile_cons_of_neg (by simp)]
  rw [List.takeWhile_cons_of_pos (by decide), takeWhile_append_all _ hbodyclean,
    List.takeWhile_cons_of_neg (by simp)]
  rw [qt_skip _ _ (by decide)]
  have hqt := qt_body_fn ((exportedFunctionsOf h).map fun f => f.toList) hcleanQ []
  simp only [List.append_nil] at hqt
  rw [List.append_nil]
  rw [hqt]
  show (((exportedFunctionsOf h).map fun f => f.toList).map
      (fun w => '_' :: w) ++ quotedTokens []).map (fun l => String.mk l) = _
  rw [show quotedTokens ([] : List Char) = [] from rfl, List.append_nil,
    List.map_map, List.map_map]
  rfl

set_option maxRecDepth 100000 in
theorem firstArrayIds_ts (h : String) :
    firstArrayIds (tsContent h) = exportedFunctionsOf h := by
  have hword := exported_all_word h
  unfold firstArrayIds
  have hct : (tsContent h).toList = tsContentL h := rfl
  rw [hct]
  unfold tsContentL
  have hmap : ((exportedFunctionsOf h).map fun f => ' ' :: ' ' :: '"' :: f.toList ++ ['"']) =
      ((exportedFunctionsOf h).map fun f => f.toList).map
        (fun w => ' ' :: ' ' :: '"' :: (w ++ ['"'])) := by
    rw [List.map_map]
    rfl
  rw [hmap]
  have hcleanQ : ∀ w ∈ (exportedFunctionsOf h).map (fun f => f.toList),
      (w.all fun c => c ≠ '"') = true := by
    intro w hw
    obtain ⟨f, hf, rfl⟩ := List.mem_map.mp hw
    exact word_clean_quote (hword f hf)
  have hcleanB : ∀ w ∈ (exportedFunctionsOf h).map (fun f => f.toList),
      (w.all fun c => c ≠ ']') = true := by
    intro w hw
    obtain ⟨f, hf, rfl⟩ := List.mem_map.mp hw
    exact word_clean_rbracket (hword f hf)
  have hbodyclean : ((sepJoin (",\n".toList)
      (((exportedFunctionsOf h).map fun f => f.toList).map
        (fun w => ' ' :: ' ' :: '"' :: (w ++ ['"'])))).all fun c => c ≠ ']') = true := by
    refine sepJoin_all _ _ (by decide) _ ?_
    intro w hw
    obtain ⟨v, hv, rfl⟩ := List.mem_map.mp hw
    rw [List.all_cons, Bool.and_eq_true_iff]
    refine ⟨by decide, ?_⟩
    rw [List.all_cons, Bool.and_eq_true_iff]
    refine ⟨by decide, ?_⟩
    rw [List.all_cons, Bool.and_eq_true_iff]
    refine ⟨by decide, ?_⟩
    rw [List.all_append, Bool.and_eq_true_iff]
    exact ⟨hcleanB v hv, by decide⟩
  have eP : ("/* AUTO-GENERATED - DO NOT EDIT BY HAND */\n/* Generated by build/generate-exports.mjs */\n/// <reference types=\"emscripten\" />\n\nexport const allExportedFunctions = [\n").toList =
      ("/* AUTO-GENERATED - DO NOT EDIT BY HAND */\n/* Generated by build/generate-exports.mjs */\n/// <reference types=\"emscripten\" />\n\nexport const allExportedFunctions = ").toList ++
        '[' :: ['\n'] := by decide
  rw [eP]
  have eS1 : ("\n] as const;\n\nexport const allRuntimeMethods = [\n").toList =
      '\n' :: ']' :: (" as const;\n\nexport const allRuntimeMethods = [\n").toList := by
    decide
  rw [eS1]
  simp only [List.append_assoc, List.cons_append, List.singleton_append,
    List.nil_append]
  rw [dropWhile_append_all _ (by decide)]
  rw [List.dropWhile_cons_of_neg (by simp)]
  rw [List.takeWhile_cons_of_pos (by decide), List.takeWhile_cons_of_pos (by decide)]
  rw [takeWhile_append_all _ hbodyclean]
  rw [List.takeWhile_cons_of_pos (by decide), List.takeWhile_cons_of_neg (by simp)]
  rw [qt_skip _ _ (by decide), qt_skip _ _ (by decide)]
  have hqt := qt_body_ts ((exportedFunctionsOf h).map fun f => f.toList) hcleanQ ['\n']
  rw [hqt]
  rw [show quotedTokens ['\n'] = [] from rfl, List.append_nil, List.map_map]
  show (exportedFunctionsOf h).map id = _
  exact List.map_id _

/-!
Claim C8.  Four-artifact consistency: the identifier set of the compiler
export-list artifact equals that of the typed mirror's export constant modulo
the underscore linkage prefix.
-/

/-- Claim C8: for every run, the identifiers rendered into the first array
literal of the compiler export-list artifact are exactly, element by element
and in order (hence also as sets), the identifiers of the typed mirror's
export constant with the underscore linkage-prefix character prepended, and
the mirror's export constant holds exactly the final export set. -/
theorem c8_artifact_id_consistency :
    ∀ header : String,
      firstArrayIds (functionsContent header) =
        (firstArrayIds (tsContent header)).map (fun f => "_" ++ f) ∧
      firstArrayIds (tsContent header) = exportedFunctionsOf header := by
  intro h
  refine ⟨?_, firstArrayIds_ts h⟩
  rw [firstArrayIds_functions h, firstArrayIds_ts h]

end QpdfGen
